import Mathlib

/-!
Shallow embedding of the analytics real-time counter and report-cache
subsystem (`app/services/redis_service.py` of the analytics service).

The key-value store is modelled as an association list from key strings to
typed values, each carrying an optional TTL (`none` = the key persists).
Every `RedisService` method becomes a pure state transformer
(`Store → Store`) or a pure read of the store.  The current calendar date
(`datetime.now().strftime("%Y-%m-%d")` in the source) enters every
operation as an explicit `today : String` parameter.

Modelling conventions:
* Redis integer counters (`INCR`) are modelled as `Int`, float accumulators
  (`INCRBYFLOAT`) as `Rat`; the decimal-string wire encoding that Redis uses
  and that the Python code parses back with `int(...)` / `float(...)` is an
  identity on these values and is elided.
* Redis raises `WRONGTYPE` when a command meets a value of another type.
  States reachable through this service keep every key at a single type, so
  the total functions below agree with Redis on all reachable states; on
  type-mismatched states they overwrite instead of raising.
-/

namespace Analytics

/-- A value stored under one Redis key: string, integer counter, float
accumulator, set of member strings, or sorted set (member, score). -/
inductive RVal where
  | str (s : String)
  | int (n : Int)
  | num (q : Rat)
  | set (members : List String)
  | zset (scores : List (String × Int))
deriving DecidableEq, Repr

/-- One key's state: its value and its TTL in seconds (`none` = no expiry,
as for a key created by `INCR`/`SADD` without a subsequent `EXPIRE`). -/
structure Entry where
  val : RVal
  ttl : Option Nat
deriving DecidableEq, Repr

/-- The whole key-value store, as an association list keyed by strings.
All operations below preserve distinctness of keys. -/
abbrev Store := List (String × Entry)

/-- Association-list lookup. -/
def aget {α : Type} : List (String × α) → String → Option α
  | [], _ => none
  | p :: rest, k => if p.1 = k then some p.2 else aget rest k

/-- Association-list update: replace in place, or append if absent. -/
def aset {α : Type} : List (String × α) → String → α → List (String × α)
  | [], k, v => [(k, v)]
  | p :: rest, k, v => if p.1 = k then (k, v) :: rest else p :: aset rest k v

/-- Association-list deletion of the first binding of a key. -/
def adel {α : Type} : List (String × α) → String → List (String × α)
  | [], _ => []
  | p :: rest, k => if p.1 = k then rest else p :: adel rest k

/-! ## Redis command primitives used by the service -/
/-- `INCR key`: create the key at 1 (no TTL) or add 1, keeping the key's TTL.
Redis raises WRONGTYPE on a non-integer value; unreachable for this service. -/
def incr (s : Store) (k : String) : Store :=
  match aget s k with
  | some e =>
    match e.val with
    | RVal.int n => aset s k ⟨RVal.int (n + 1), e.ttl⟩
    | _ => aset s k ⟨RVal.int 1, e.ttl⟩
  | none => aset s k ⟨RVal.int 1, none⟩

/-- `INCRBYFLOAT key amount`: create at `amount` (no TTL) or add, keeping the TTL. -/
def incrbyfloat (s : Store) (k : String) (amount : Rat) : Store :=
  match aget s k with
  | some e =>
    match e.val with
    | RVal.num q => aset s k ⟨RVal.num (q + amount), e.ttl⟩
    | _ => aset s k ⟨RVal.num amount, e.ttl⟩
  | none => aset s k ⟨RVal.num amount, none⟩

/-- `EXPIRE key seconds`: set the TTL of an existing key; no-op if absent. -/
def expire (s : Store) (k : String) (t : Nat) : Store :=
  match aget s k with
  | some e => aset s k ⟨e.val, some t⟩
  | none => s

/-- `SADD key member`: add a member to a set, creating the set (no TTL) if
absent; a no-op when the member is already present. -/
def sadd (s : Store) (k : String) (m : String) : Store :=
  match aget s k with
  | some e =>
    match e.val with
    | RVal.set ms => if m ∈ ms then s else aset s k ⟨RVal.set (ms ++ [m]), e.ttl⟩
    | _ => aset s k ⟨RVal.set [m], e.ttl⟩
  | none => aset s k ⟨RVal.set [m], none⟩

/-- `SCARD key`: set cardinality, 0 for a missing key (the Python reads it
through `results[i] or 0`). -/
def scard (s : Store) (k : String) : Nat :=
  match aget s k with
  | some e =>
    match e.val with
    | RVal.set ms => ms.length
    | _ => 0
  | none => 0

/-- Add `d` to a member's score inside a sorted-set score list. -/
def zbump : List (String × Int) → String → Int → List (String × Int)
  | [], m, d => [(m, d)]
  | p :: rest, m, d => if p.1 = m then (m, p.2 + d) :: rest else p :: zbump rest m d

/-- `ZINCRBY key d member`: increment a member's score, creating key/member
as needed (key created with no TTL), keeping the key's TTL. -/
def zincrby (s : Store) (k : String) (d : Int) (m : String) : Store :=
  match aget s k with
  | some e =>
    match e.val with
    | RVal.zset sc => aset s k ⟨RVal.zset (zbump sc m d), e.ttl⟩
    | _ => aset s k ⟨RVal.zset [(m, d)], e.ttl⟩
  | none => aset s k ⟨RVal.zset [(m, d)], none⟩

/-- `SETEX key t v`: write a string value with TTL `t`, overwriting any
previous value and TTL. -/
def setex (s : Store) (k : String) (t : Nat) (v : String) : Store :=
  aset s k ⟨RVal.str v, some t⟩

/-- Glob matching with structural fuel (any fuel above the summed lengths
works; `globMatch` supplies one). -/
def globMatchAux : Nat → List Char → List Char → Bool
  | 0, _, _ => false
  | fuel + 1, p, s =>
    match p with
    | [] => s.isEmpty
    | c :: ps =>
      if c = '*' then
        globMatchAux fuel ps s ||
          (match s with
           | [] => false
           | _ :: s1 => globMatchAux fuel (c :: ps) s1)
      else
        match s with
        | [] => false
        | a :: s1 => (c = a || c = '?') && globMatchAux fuel ps s1

/-- Glob match for `KEYS`: literal characters plus the wildcards used here,
star for any run and question mark for one character. -/
def globMatch (p s : List Char) : Bool :=
  globMatchAux (p.length + s.length + 1) p s

/-- `KEYS pattern`: every present key matching the pattern (keys are kept
distinct by the store invariant, so each is listed once). -/
def redisKeys (s : Store) (pattern : String) : List String :=
  (s.map Prod.fst).filter (fun k => globMatch pattern.data k.data)

/-- `DEL k1 ... kn`: delete the named keys one after the other, returning
how many of them existed. -/
def redisDel (s : Store) : List String → Nat × Store
  | [] => (0, s)
  | k :: ks =>
    match aget s k with
    | some _ =>
      let r := redisDel (adel s k) ks
      (r.1 + 1, r.2)
    | none => redisDel s ks

/-! ## Key construction (section 6 key-naming contract, `ns = analytics`) -/
def nsDailyViews (today : String) : String := "analytics:daily:views:" ++ today

def nsUniqueVisitors (today : String) : String :=
  "analytics:daily:unique_visitors:" ++ today

def nsActiveUsers : String := "analytics:realtime:active_users"

def nsDailySales (today : String) : String := "analytics:daily:sales:" ++ today

def nsDailySalesCount (today : String) : String :=
  "analytics:daily:sales_count:" ++ today

def nsProductViews (pid today : String) : String :=
  "analytics:product:" ++ pid ++ ":views:" ++ today

def nsProductSales (pid today : String) : String :=
  "analytics:product:" ++ pid ++ ":sales:" ++ today

def nsTopProducts (today : String) : String :=
  "analytics:daily:top_products:" ++ today

def nsCache (k : String) : String := "analytics:cache:" ++ k

/-! ## Write-path operations of `RedisService` -/
/-- `RedisService.increment_product_view(product_id, user_id)`: the daily
views key is incremented with no `expire`; the per-product key, the daily
unique-visitors set (when `user_id` is truthy, i.e. a non-empty string) and
the active-users set each get an `expire` right after their write. -/
def increment_product_view (today pid : String) (user_id : Option String)
    (s : Store) : Store :=
  let s1 := incr s (nsDailyViews today)
  let s2 := incr s1 (nsProductViews pid today)
  let s3 := expire s2 (nsProductViews pid today) 86400
  let s4 :=
    match user_id with
    | some u =>
      if u = "" then s3
      else expire (sadd s3 (nsUniqueVisitors today) u) (nsUniqueVisitors today) 86400
    | none => s3
  match user_id with
  | some u =>
    if u = "" then s4
    else expire (sadd s4 nsActiveUsers u) nsActiveUsers 300
  | none => s4

/-- `RedisService.track_sale_realtime(product_id, amount)`: three
increment-then-expire pairs, with no validation of `amount` or `product_id`. -/
def track_sale_realtime (today pid : String) (amount : Rat) (s : Store) : Store :=
  let s1 := incrbyfloat s (nsDailySales today) amount
  let s2 := expire s1 (nsDailySales today) 86400
  let s3 := incr s2 (nsDailySalesCount today)
  let s4 := expire s3 (nsDailySalesCount today) 86400
  let s5 := incrbyfloat s4 (nsProductSales pid today) amount
  expire s5 (nsProductSales pid today) 86400

/-- `RedisService.update_top_products(product_id, views)`:
`ZINCRBY` on the day's ranking followed by `EXPIRE`. -/
def update_top_products (today pid : String) (views : Int) (s : Store) : Store :=
  expire (zincrby s (nsTopProducts today) views pid) (nsTopProducts today) 86400

/-! ## Read-path operations of `RedisService` -/
/-- `int(GET key or 0)`: an integer counter read, 0 when the key is absent. -/
def readInt (s : Store) (k : String) : Int :=
  match aget s k with
  | some e =>
    match e.val with
    | RVal.int n => n
    | _ => 0
  | none => 0

/-- `float(GET key or 0)`: a float accumulator read, 0 when the key is absent. -/
def readNum (s : Store) (k : String) : Rat :=
  match aget s k with
  | some e =>
    match e.val with
    | RVal.num q => q
    | _ => 0
  | none => 0

/-- Floor of a rational, computed by floor-division of the numerator by the
(positive) denominator. -/
def ratFloor (q : Rat) : Int := q.num.fdiv q.den

/-- Round half to even, the rule used by Python's builtin `round`. -/
def roundHalfEven (q : Rat) : Int :=
  if q - ratFloor q < 1 / 2 then ratFloor q
  else if 1 / 2 < q - ratFloor q then ratFloor q + 1
  else if ratFloor q % 2 = 0 then ratFloor q else ratFloor q + 1

/-- Python's `round(x, 2)`, modelled over the rationals (the source applies
it to a float; the binary representation step is elided). -/
def round2 (q : Rat) : Rat := (roundHalfEven (q * 100) : Rat) / 100

/-- `ZREVRANGEBYSCORE` ordering: score descending, ties by member string
descending (the reverse of Redis's ascending score, ascending member order). -/
def zRel (a b : String × Int) : Prop := b.2 < a.2 ∨ (a.2 = b.2 ∧ b.1 ≤ a.1)

instance : DecidableRel zRel := fun a b => by
  unfold zRel
  infer_instance

instance : IsTotal (String × Int) zRel where
  total a b := by
    rcases lt_trichotomy a.2 b.2 with h | h | h
    · exact Or.inr (Or.inl h)
    · rcases le_total a.1 b.1 with hs | hs
      · exact Or.inr (Or.inr ⟨h.symm, hs⟩)
      · exact Or.inl (Or.inr ⟨h, hs⟩)
    · exact Or.inl (Or.inl h)

instance : IsTrans (String × Int) zRel where
  trans a b c hab hbc := by
    rcases hab with hab | ⟨hab, hab2⟩
    · rcases hbc with hbc | ⟨hbc, hbc2⟩
      · exact Or.inl (lt_trans hbc hab)
      · exact Or.inl (hbc ▸ hab)
    · rcases hbc with hbc | ⟨hbc, hbc2⟩
      · exact Or.inl (hab ▸ hbc)
      · exact Or.inr ⟨hab.trans hbc, le_trans hbc2 hab2⟩

/-- `ZREVRANGEBYSCORE key +inf -inf start=0 num=n withscores=True`:
all members sorted by descending score, truncated to `n`; empty for a
missing key. -/
def ztopDesc (s : Store) (k : String) (n : Nat) : List (String × Int) :=
  match aget s k with
  | some e =>
    match e.val with
    | RVal.zset sc => (List.insertionSort zRel sc).take n
    | _ => []
  | none => []

/-- Return value of `get_realtime_metrics`. -/
structure Metrics where
  active_users : Nat
  today_views : Int
  today_sales : Rat
  sales_count : Int
  conversion_rate : Rat
  unique_visitors : Nat
  top_products : List (String × Int)
deriving DecidableEq, Repr

/-- Return value of `get_daily_stats`. -/
structure DailyStats where
  date : String
  views : Int
  unique_visitors : Nat
  sales_amount : Rat
  sales_count : Int
deriving DecidableEq, Repr

/-- Return value of `get_product_stats`. -/
structure ProductStats where
  product_id : String
  date : String
  views : Int
  sales : Rat
deriving DecidableEq, Repr

/-- `RedisService.get_realtime_metrics()`: pipelined reads of today's
counters and sets, the conversion rate (guarding `views > 0`), and the top-5
ranking slice. -/
def get_realtime_metrics (today : String) (s : Store) : Metrics :=
  let today_views := readInt s (nsDailyViews today)
  let sales_count := readInt s (nsDailySalesCount today)
  { active_users := scard s nsActiveUsers
    today_views := today_views
    today_sales := readNum s (nsDailySales today)
    sales_count := sales_count
    conversion_rate :=
      if 0 < today_views then round2 ((sales_count : Rat) / (today_views : Rat) * 100)
      else 0
    unique_visitors := scard s (nsUniqueVisitors today)
    top_products := ztopDesc s (nsTopProducts today) 5 }

/-- `RedisService.get_daily_stats(date_str)`. -/
def get_daily_stats (d : String) (s : Store) : DailyStats :=
  { date := d
    views := readInt s (nsDailyViews d)
    unique_visitors := scard s (nsUniqueVisitors d)
    sales_amount := readNum s (nsDailySales d)
    sales_count := readInt s (nsDailySalesCount d) }

/-- `RedisService.get_product_stats(product_id, date_str)`. -/
def get_product_stats (pid d : String) (s : Store) : ProductStats :=
  { product_id := pid
    date := d
    views := readInt s (nsProductViews pid d)
    sales := readNum s (nsProductSales pid d) }

/-- `RedisService.invalidate_cache(pattern)`: `KEYS` then a single variadic
`DELETE`; returns the deleted count (0 when nothing matched) with the store. -/
def invalidate_cache (pattern : String) (s : Store) : Nat × Store :=
  let ks := redisKeys s pattern
  if ks.isEmpty then (0, s) else redisDel s ks

/-! ## Claim C8 -/
/-- Score of a member in a sorted-set score list, 0 when absent
(`ZSCORE` view used to state accumulation). -/
def zGet : List (String × Int) → String → Int
  | [], _ => 0
  | p :: rest, m => if p.1 = m then p.2 else zGet rest m

/-- Score of a member of the sorted set at `k`, 0 when key or member is
absent. -/
def zscore (s : Store) (k m : String) : Int :=
  match aget s k with
  | some e =>
    match e.val with
    | RVal.zset sc => zGet sc m
    | _ => 0
  | none => 0

/-! ## JSON values, serialization (`json.dumps`) and parsing (`json.loads`)

The report cache stores `json.dumps(data, default=str)` strings and reads
them back with `json.loads`.  JSON values are modelled with integer
numbers (the fragment exercised by the cache claims; float syntax is not
part of the model) and the serializer mirrors `json.dumps` defaults:
separators `", "` and `": "`, short escapes for quote, backslash and the
named control characters, `\u00XX` for the remaining control characters.
Unlike `ensure_ascii=True`, characters from `0x20` up are kept literal;
this changes only the wire text, not the round-trip behaviour.  The
`default=str` fallback never fires on a JSON value. -/
/-- A JSON value.  Objects carry their fields in insertion order, as
Python dicts do. -/
inductive Json where
  | null
  | bool (b : Bool)
  | num (n : Int)
  | str (s : String)
  | arr (items : List Json)
  | obj (fields : List (String × Json))

/-- The double-quote character, written via its code point. -/
def quoteChar : Char := Char.ofNat 34

/-- The backslash character, written via its code point. -/
def backslashChar : Char := Char.ofNat 92

/-- The opening curly bracket, written via its code point. -/
def lbraceChar : Char := Char.ofNat 123

/-- The closing curly bracket, written via its code point. -/
def rbraceChar : Char := Char.ofNat 125

/-- Lowercase hexadecimal digit for a value below 16. -/
def hexChar (n : Nat) : Char :=
  if n < 10 then Char.ofNat (48 + n) else Char.ofNat (87 + n)

/-- How `json.dumps` writes one character inside a string literal. -/
def escapeChar (c : Char) : List Char :=
  if c = quoteChar then [backslashChar, quoteChar]
  else if c = backslashChar then [backslashChar, backslashChar]
  else if c = Char.ofNat 8 then [backslashChar, 'b']
  else if c = Char.ofNat 9 then [backslashChar, 't']
  else if c = Char.ofNat 10 then [backslashChar, 'n']
  else if c = Char.ofNat 12 then [backslashChar, 'f']
  else if c = Char.ofNat 13 then [backslashChar, 'r']
  else if c.toNat < 32 then
    [backslashChar, 'u', '0', '0', hexChar (c.toNat / 16), hexChar (c.toNat % 16)]
  else [c]

/-- Escape every character of a string body. -/
def escapeList : List Char → List Char
  | [] => []
  | c :: cs => escapeChar c ++ escapeList cs

/-- A serialized JSON string literal, quotes included. -/
def serStr (s : String) : List Char := quoteChar :: (escapeList s.data ++ [quoteChar])

/-- Decimal digit character. -/
def digitChar (d : Nat) : Char := Char.ofNat (48 + d)

/-- Decimal digits with structural fuel (any fuel above the value works;
`serNat` supplies one). -/
def serNatAux : Nat → Nat → List Char
  | 0, _ => []
  | fuel + 1, n =>
    if n < 10 then [digitChar n] else serNatAux fuel (n / 10) ++ [digitChar (n % 10)]

/-- Decimal digits of a natural number, most significant first. -/
def serNat (n : Nat) : List Char := serNatAux (n + 1) n

/-- Decimal form of an integer. -/
def serInt (n : Int) : List Char :=
  if n < 0 then '-' :: serNat n.natAbs else serNat n.toNat

mutual

/-- `json.dumps` with its default separators, over `List Char`. -/
def serJson : Json → List Char
  | Json.null => ['n', 'u', 'l', 'l']
  | Json.bool true => ['t', 'r', 'u', 'e']
  | Json.bool false => ['f', 'a', 'l', 's', 'e']
  | Json.num n => serInt n
  | Json.str s => serStr s
  | Json.arr items => '[' :: (serItems items ++ [']'])
  | Json.obj fields => lbraceChar :: (serFields fields ++ [rbraceChar])

/-- Array elements, joined by `", "`. -/
def serItems : List Json → List Char
  | [] => []
  | [x] => serJson x
  | x :: y :: rest => serJson x ++ (',' :: ' ' :: serItems (y :: rest))

/-- Object members `"key": value`, joined by `", "`. -/
def serFields : List (String × Json) → List Char
  | [] => []
  | [p] => serStr p.1 ++ (':' :: ' ' :: serJson p.2)
  | p :: q :: rest =>
    (serStr p.1 ++ (':' :: ' ' :: serJson p.2)) ++
      (',' :: ' ' :: serFields (q :: rest))

end

/-- `json.dumps(data)` as a `String`. -/
def dumps (v : Json) : String := String.mk (serJson v)

/-- JSON whitespace test. -/
def isWsChar (c : Char) : Bool :=
  c = ' ' || c = Char.ofNat 9 || c = Char.ofNat 10 || c = Char.ofNat 13

/-- Skip leading JSON whitespace. -/
def skipWs : List Char → List Char
  | [] => []
  | c :: cs => if isWsChar c then skipWs cs else c :: cs

/-- Value of one hexadecimal digit character. -/
def hexVal (c : Char) : Option Nat :=
  if 48 ≤ c.toNat ∧ c.toNat ≤ 57 then some (c.toNat - 48)
  else if 97 ≤ c.toNat ∧ c.toNat ≤ 102 then some (c.toNat - 87)
  else if 65 ≤ c.toNat ∧ c.toNat ≤ 70 then some (c.toNat - 55)
  else none

/-- Parse the body of a string literal after the opening quote, up to and
consuming the closing quote, resolving escapes; returns the decoded
characters and the remaining input.  (Surrogate-pair recombination is not
modelled; the serializer never emits surrogates.) -/
def parseStrBody : List Char → Option (List Char × List Char)
  | [] => none
  | c :: cs =>
    if c = quoteChar then some ([], cs)
    else if c = backslashChar then
      match cs with
      | [] => none
      | e :: cs2 =>
        if e = quoteChar then
          (parseStrBody cs2).map (fun r => (quoteChar :: r.1, r.2))
        else if e = backslashChar then
          (parseStrBody cs2).map (fun r => (backslashChar :: r.1, r.2))
        else if e = '/' then
          (parseStrBody cs2).map (fun r => ('/' :: r.1, r.2))
        else if e = 'b' then
          (parseStrBody cs2).map (fun r => (Char.ofNat 8 :: r.1, r.2))
        else if e = 't' then
          (parseStrBody cs2).map (fun r => (Char.ofNat 9 :: r.1, r.2))
        else if e = 'n' then
          (parseStrBody cs2).map (fun r => (Char.ofNat 10 :: r.1, r.2))
        else if e = 'f' then
          (parseStrBody cs2).map (fun r => (Char.ofNat 12 :: r.1, r.2))
        else if e = 'r' then
          (parseStrBody cs2).map (fun r => (Char.ofNat 13 :: r.1, r.2))
        else if e = 'u' then
          match cs2 with
          | h1 :: h2 :: h3 :: h4 :: cs3 =>
            match hexVal h1, hexVal h2, hexVal h3, hexVal h4 with
            | some a, some b, some c2, some d =>
              (parseStrBody cs3).map
                (fun r => (Char.ofNat (4096 * a + 256 * b + 16 * c2 + d) :: r.1, r.2))
            | _, _, _, _ => none
          | _ => none
        else none
    else (parseStrBody cs).map (fun r => (c :: r.1, r.2))

/-- Decimal digit test, by code point. -/
def isDigitChar (c : Char) : Bool := 48 ≤ c.toNat && c.toNat ≤ 57

/-- Accumulate decimal digits, stopping at the first non-digit. -/
def parseDigits (acc : Nat) : List Char → Nat × List Char
  | [] => (acc, [])
  | c :: cs =>
    if isDigitChar c then parseDigits (10 * acc + (c.toNat - 48)) cs
    else (acc, c :: cs)

/-- Parse an integer token: optional minus sign, one or more digits.
(JSON fraction/exponent syntax is outside the modelled fragment.) -/
def parseIntTok : List Char → Option (Int × List Char)
  | [] => none
  | c :: cs =>
    if c = '-' then
      match cs with
      | [] => none
      | d :: _ =>
        if isDigitChar d then
          some (-((parseDigits 0 cs).1 : Int), (parseDigits 0 cs).2)
        else none
    else if isDigitChar c then
      some (((parseDigits 0 (c :: cs)).1 : Int), (parseDigits 0 (c :: cs)).2)
    else none

/-- Replace or append one object member, as inserting into a Python dict
does: an existing key keeps its position but takes the new value. -/
def upsertField : List (String × Json) → String → Json → List (String × Json)
  | [], k, v => [(k, v)]
  | p :: rest, k, v => if p.1 = k then (k, v) :: rest else p :: upsertField rest k v

/-- Collapse duplicate keys the way `json.loads` does by building a dict:
later occurrences overwrite the value at the first occurrence's position. -/
def dedupFields (l : List (String × Json)) : List (String × Json) :=
  l.foldl (fun acc p => upsertField acc p.1 p.2) []

mutual

/-- Parse one JSON value (fuel-indexed recursive descent). -/
def parseVal : Nat → List Char → Option (Json × List Char)
  | 0, _ => none
  | Nat.succ fuel, cs =>
    match skipWs cs with
    | [] => none
    | c :: cs1 =>
      if c = quoteChar then
        (parseStrBody cs1).map (fun r => (Json.str (String.mk r.1), r.2))
      else if c = '[' then
        match skipWs cs1 with
        | [] => none
        | c2 :: cs2 =>
          if c2 = ']' then some (Json.arr [], cs2)
          else
            (parseItems fuel (c2 :: cs2)).map (fun r => (Json.arr r.1, r.2))
      else if c = lbraceChar then
        match skipWs cs1 with
        | [] => none
        | c2 :: cs2 =>
          if c2 = rbraceChar then some (Json.obj [], cs2)
          else
            (parseMembers fuel (c2 :: cs2)).map
              (fun r => (Json.obj (dedupFields r.1), r.2))
      else if c = 'n' then
        match cs1 with
        | 'u' :: 'l' :: 'l' :: cs2 => some (Json.null, cs2)
        | _ => none
      else if c = 't' then
        match cs1 with
        | 'r' :: 'u' :: 'e' :: cs2 => some (Json.bool true, cs2)
        | _ => none
      else if c = 'f' then
        match cs1 with
        | 'a' :: 'l' :: 's' :: 'e' :: cs2 => some (Json.bool false, cs2)
        | _ => none
      else (parseIntTok (c :: cs1)).map (fun r => (Json.num r.1, r.2))

/-- Parse the elements of a non-empty array, consuming the closing bracket. -/
def parseItems : Nat → List Char → Option (List Json × List Char)
  | 0, _ => none
  | Nat.succ fuel, cs =>
    match parseVal fuel cs with
    | none => none
    | some (v, cs1) =>
      match skipWs cs1 with
      | [] => none
      | c :: cs2 =>
        if c = ',' then (parseItems fuel cs2).map (fun r => (v :: r.1, r.2))
        else if c = ']' then some ([v], cs2)
        else none

/-- Parse the members of a non-empty object, consuming the closing brace. -/
def parseMembers : Nat → List Char → Option (List (String × Json) × List Char)
  | 0, _ => none
  | Nat.succ fuel, cs =>
    match skipWs cs with
    | [] => none
    | c :: cs1 =>
      if c = quoteChar then
        match parseStrBody cs1 with
        | none => none
        | some (kcs, cs2) =>
          match skipWs cs2 with
          | [] => none
          | c1 :: cs3 =>
            if c1 = ':' then
              match parseVal fuel cs3 with
              | none => none
              | some (v, cs4) =>
                match skipWs cs4 with
                | [] => none
                | c2 :: cs5 =>
                  if c2 = ',' then
                    (parseMembers fuel cs5).map
                      (fun r => ((String.mk kcs, v) :: r.1, r.2))
                  else if c2 = rbraceChar then some ([(String.mk kcs, v)], cs5)
                  else none
            else none
      else none

end

/-- `json.loads`: parse a whole document, requiring only trailing
whitespace after the value; `none` models `JSONDecodeError`. -/
def parseJson (s : String) : Option Json :=
  match parseVal (s.length + 1) s.data with
  | some (v, rest) => if skipWs rest = [] then some v else none
  | none => none

/-! ## Report cache operations of `RedisService` -/
/-- `RedisService.cache_report(key, data, ttl)`: `SETEX` of the serialized
payload under the prefixed cache key. -/
def cache_report (k : String) (data : Json) (ttl : Nat) (s : Store) : Store :=
  setex s (nsCache k) ttl (dumps data)

/-- `RedisService.get_cached_report(key)`: read the prefixed key; a missing
key, a falsy (empty) payload, a payload that fails to deserialize, and a
payload deserializing to `None` (JSON `null`) all come back as Python
`None`, modelled as `none`.  (`GET` on a non-string key raises WRONGTYPE in
Redis; unreachable for cache keys.) -/
def get_cached_report (k : String) (s : Store) : Option Json :=
  match aget s (nsCache k) with
  | some e =>
    match e.val with
    | RVal.str c =>
      if c = "" then none
      else
        match parseJson c with
        | some Json.null => none
        | some v => some v
        | none => none
    | _ => none
  | none => none

/-! ## Well-formedness fragments of JSON values -/
/-- No string occurs twice in the list (object keys of a Python dict). -/
def keysNodup : List String → Bool
  | [] => true
  | k :: ks => (!ks.contains k) && keysNodup ks

mutual

/-- Every object inside the value has pairwise distinct keys — true of any
value produced from Python dicts, whose keys are unique. -/
def wfKeys : Json → Bool
  | Json.null => true
  | Json.bool _ => true
  | Json.num _ => true
  | Json.str _ => true
  | Json.arr items => wfKeysItems items
  | Json.obj fields => keysNodup (fields.map Prod.fst) && wfKeysFields fields

def wfKeysItems : List Json → Bool
  | [] => true
  | x :: xs => wfKeys x && wfKeysItems xs

def wfKeysFields : List (String × Json) → Bool
  | [] => true
  | p :: ps => wfKeys p.2 && wfKeysFields ps

end

mutual

/-- The fragment named by the cache round-trip claim: values built from
nested JSON objects (with the distinct keys every Python dict has),
arrays, numbers and strings (no null, no booleans). -/
def isDataVal : Json → Bool
  | Json.null => false
  | Json.bool _ => false
  | Json.num _ => true
  | Json.str _ => true
  | Json.arr items => isDataValItems items
  | Json.obj fields => keysNodup (fields.map Prod.fst) && isDataValFields fields

def isDataValItems : List Json → Bool
  | [] => true
  | x :: xs => isDataVal x && isDataValItems xs

def isDataValFields : List (String × Json) → Bool
  | [] => true
  | p :: ps => isDataVal p.2 && isDataValFields ps

end

mutual

/-- Fuel sufficient for `parseVal` to parse the serialized value. -/
def jfuel : Json → Nat
  | Json.null => 1
  | Json.bool _ => 1
  | Json.num _ => 1
  | Json.str _ => 1
  | Json.arr items => jfuelItems items + 1
  | Json.obj fields => jfuelFields fields + 1

def jfuelItems : List Json → Nat
  | [] => 0
  | x :: xs => jfuel x + jfuelItems xs + 1

def jfuelFields : List (String × Json) → Nat
  | [] => 0
  | p :: ps => jfuel p.2 + jfuelFields ps + 1

end

/-- Head of the remaining input is not a digit. -/
def headNotDigit : List Char → Bool
  | [] => true
  | c :: _ => !isDigitChar c

/-! ## Theorems -/

theorem aget_aset_self {α : Type} (l : List (String × α)) (k : String) (v : α) :
    aget (aset l k v) k = some v := by
  induction l with
  | nil => simp [aget, aset]
  | cons p rest ih =>
    by_cases h : p.1 = k
    · simp [aget, aset, h]
    · simp [aget, aset, h, ih]

theorem aget_aset_ne {α : Type} (l : List (String × α)) {k k' : String} (v : α)
    (h : k ≠ k') : aget (aset l k v) k' = aget l k' := by
  induction l with
  | nil => simp [aget, aset, h]
  | cons p rest ih =>
    by_cases hp : p.1 = k
    · simp [aget, aset, hp, h, Ne.symm h]
    · by_cases hp' : p.1 = k'
      · simp [aget, aset, hp, hp', Ne.symm h]
      · simp [aget, aset, hp, hp', ih]

theorem aget_adel_ne {α : Type} (l : List (String × α)) {k k' : String}
    (h : k ≠ k') : aget (adel l k) k' = aget l k' := by
  induction l with
  | nil => simp [adel]
  | cons p rest ih =>
    by_cases hp : p.1 = k
    · simp [adel, aget, hp, h, Ne.symm h]
    · by_cases hp' : p.1 = k'
      · simp [adel, aget, hp, hp', Ne.symm h]
      · simp [adel, aget, hp, hp', ih]

theorem adel_keys_sublist {α : Type} (l : List (String × α)) (k : String) :
    ((adel l k).map Prod.fst).Sublist (l.map Prod.fst) := by
  induction l with
  | nil => simp [adel]
  | cons p rest ih =>
    by_cases hp : p.1 = k
    · simp only [adel, hp, if_pos rfl, List.map]
      exact (List.sublist_cons_self _ _)
    · simp only [adel, hp, if_neg hp, List.map]
      exact List.Sublist.cons₂ _ ih

theorem aget_eq_none_of_not_mem {α : Type} (l : List (String × α)) (k : String)
    (h : k ∉ l.map Prod.fst) : aget l k = none := by
  induction l with
  | nil => simp [aget]
  | cons p rest ih =>
    have h1 : p.1 ≠ k := by
      intro e
      exact h (by simp [e])
    have h2 : k ∉ rest.map Prod.fst := by
      intro hm
      exact h (by simp [hm])
    simp only [aget, if_neg h1]
    exact ih h2

theorem aget_adel_self {α : Type} (l : List (String × α)) (k : String)
    (h : (l.map Prod.fst).Nodup) : aget (adel l k) k = none := by
  induction l with
  | nil => simp [adel, aget]
  | cons p rest ih =>
    simp only [List.map, List.nodup_cons] at h
    by_cases hp : p.1 = k
    · simp only [adel, if_pos hp]
      exact aget_eq_none_of_not_mem rest k (hp ▸ h.1)
    · simp only [adel, if_neg hp, aget, if_neg hp]
      exact ih h.2

theorem keys_aset_subset {α : Type} (l : List (String × α)) (k : String) (v : α) :
    ∀ x ∈ (aset l k v).map Prod.fst, x ∈ l.map Prod.fst ∨ x = k := by
  induction l with
  | nil => simp [aset]
  | cons p rest ih =>
    intro x hx
    by_cases hp : p.1 = k
    · simp only [aset, if_pos hp, List.map, List.mem_cons] at hx
      rcases hx with rfl | hx
      · exact Or.inr rfl
      · exact Or.inl (List.mem_cons_of_mem _ hx)
    · simp only [aset, if_neg hp, List.map, List.mem_cons] at hx
      rcases hx with rfl | hx
      · exact Or.inl (List.mem_cons_self _ _)
      · rcases ih x hx with hmem | rfl
        · exact Or.inl (List.mem_cons_of_mem _ hmem)
        · exact Or.inr rfl

theorem nodup_keys_aset {α : Type} (l : List (String × α)) (k : String) (v : α)
    (h : (l.map Prod.fst).Nodup) : ((aset l k v).map Prod.fst).Nodup := by
  induction l with
  | nil => simp [aset]
  | cons p rest ih =>
    simp only [List.map, List.nodup_cons] at h
    by_cases hp : p.1 = k
    · simp only [aset, if_pos hp, List.map, List.nodup_cons]
      exact ⟨hp ▸ h.1, h.2⟩
    · simp only [aset, if_neg hp, List.map, List.nodup_cons]
      refine ⟨fun hmem => ?_, ih h.2⟩
      rcases keys_aset_subset rest k v p.1 hmem with hmem2 | rfl
      · exact h.1 hmem2
      · exact hp rfl

/-! ## Preservation lemmas for the command primitives -/
theorem aget_incr_ne (s : Store) {k k' : String} (h : k ≠ k') :
    aget (incr s k) k' = aget s k' := by
  unfold incr
  cases h1 : aget s k with
  | none => simp [aget_aset_ne _ _ h]
  | some e => cases h2 : e.val <;> simp [h2, aget_aset_ne _ _ h]

theorem aget_incrbyfloat_ne (s : Store) {k k' : String} (q : Rat) (h : k ≠ k') :
    aget (incrbyfloat s k q) k' = aget s k' := by
  unfold incrbyfloat
  cases h1 : aget s k with
  | none => simp [aget_aset_ne _ _ h]
  | some e => cases h2 : e.val <;> simp [h2, aget_aset_ne _ _ h]

theorem aget_expire_ne (s : Store) {k k' : String} (t : Nat) (h : k ≠ k') :
    aget (expire s k t) k' = aget s k' := by
  unfold expire
  cases h1 : aget s k with
  | none => rfl
  | some e => simp [aget_aset_ne _ _ h]

theorem aget_sadd_ne (s : Store) {k k' : String} (m : String) (h : k ≠ k') :
    aget (sadd s k m) k' = aget s k' := by
  unfold sadd
  cases h1 : aget s k with
  | none => simp [aget_aset_ne _ _ h]
  | some e =>
    cases h2 : e.val with
    | set ms =>
      by_cases hm : m ∈ ms
      · simp [h2, hm]
      · simp [h2, hm, aget_aset_ne _ _ h]
    | str v => simp [h2, aget_aset_ne _ _ h]
    | int n => simp [h2, aget_aset_ne _ _ h]
    | num q => simp [h2, aget_aset_ne _ _ h]
    | zset sc => simp [h2, aget_aset_ne _ _ h]

theorem aget_zincrby_ne (s : Store) {k k' : String} (d : Int) (m : String)
    (h : k ≠ k') : aget (zincrby s k d m) k' = aget s k' := by
  unfold zincrby
  cases h1 : aget s k with
  | none => simp [aget_aset_ne _ _ h]
  | some e => cases h2 : e.val <;> simp [h2, aget_aset_ne _ _ h]

theorem isSome_aget_incr_self (s : Store) (k : String) :
    (aget (incr s k) k).isSome = true := by
  unfold incr
  cases h1 : aget s k with
  | none => simp [aget_aset_self]
  | some e => cases h2 : e.val <;> simp [h2, aget_aset_self]

theorem isSome_aget_incrbyfloat_self (s : Store) (k : String) (q : Rat) :
    (aget (incrbyfloat s k q) k).isSome = true := by
  unfold incrbyfloat
  cases h1 : aget s k with
  | none => simp [aget_aset_self]
  | some e => cases h2 : e.val <;> simp [h2, aget_aset_self]

theorem aget_expire_self (s : Store) (k : String) (t : Nat) :
    aget (expire s k t) k = (aget s k).map (fun e => ⟨e.val, some t⟩) := by
  unfold expire
  cases h1 : aget s k with
  | none => simp [h1]
  | some e => simp [h1, aget_aset_self]

/-- Two appended key strings differ whenever their fixed prefixes differ at
some character position inside both prefixes. -/
theorem append_ne_of_data_get (a b t u : String) (i : Nat) (ca cb : Char)
    (h1 : a.data[i]? = some ca) (h2 : b.data[i]? = some cb) (h3 : ca ≠ cb) :
    a ++ t ≠ b ++ u := by
  intro he
  have hd : a.data ++ t.data = b.data ++ u.data := by
    have hq := congrArg String.data he
    simpa using hq
  have hlt1 : i < a.data.length := (List.getElem?_eq_some_iff.mp h1).1
  have hlt2 : i < b.data.length := (List.getElem?_eq_some_iff.mp h2).1
  have e1 : (a.data ++ t.data)[i]? = some ca := by
    rw [List.getElem?_append_left hlt1]
    exact h1
  have e2 : (b.data ++ u.data)[i]? = some cb := by
    rw [List.getElem?_append_left hlt2]
    exact h2
  rw [hd, e2] at e1
  exact h3 (Option.some.inj e1).symm

/-! ## Distinctness of the service's key families -/
theorem nsDailySales_ne_nsDailySalesCount (d d' : String) :
    nsDailySales d ≠ nsDailySalesCount d' :=
  append_ne_of_data_get _ _ _ _ 21 ':' '_' (by decide) (by decide) (by decide)

theorem nsDailySales_ne_nsProductSales (d pid d' : String) :
    nsDailySales d ≠ nsProductSales pid d' := by
  have h := append_ne_of_data_get "analytics:daily:sales:" "analytics:product:"
    d (pid ++ (":sales:" ++ d')) 10 'd' 'p' (by decide) (by decide) (by decide)
  simpa [nsDailySales, nsProductSales, String.append_assoc] using h

theorem nsDailySalesCount_ne_nsProductSales (d pid d' : String) :
    nsDailySalesCount d ≠ nsProductSales pid d' := by
  have h := append_ne_of_data_get "analytics:daily:sales_count:" "analytics:product:"
    d (pid ++ (":sales:" ++ d')) 10 'd' 'p' (by decide) (by decide) (by decide)
  simpa [nsDailySalesCount, nsProductSales, String.append_assoc] using h

theorem nsDailyViews_ne_nsProductViews (d pid d' : String) :
    nsDailyViews d ≠ nsProductViews pid d' := by
  have h := append_ne_of_data_get "analytics:daily:views:" "analytics:product:"
    d (pid ++ (":views:" ++ d')) 10 'd' 'p' (by decide) (by decide) (by decide)
  simpa [nsDailyViews, nsProductViews, String.append_assoc] using h

theorem nsUniqueVisitors_ne_nsDailyViews (d d' : String) :
    nsUniqueVisitors d ≠ nsDailyViews d' :=
  append_ne_of_data_get _ _ _ _ 16 'u' 'v' (by decide) (by decide) (by decide)

theorem nsUniqueVisitors_ne_nsProductViews (d pid d' : String) :
    nsUniqueVisitors d ≠ nsProductViews pid d' := by
  have h := append_ne_of_data_get "analytics:daily:unique_visitors:" "analytics:product:"
    d (pid ++ (":views:" ++ d')) 10 'd' 'p' (by decide) (by decide) (by decide)
  simpa [nsUniqueVisitors, nsProductViews, String.append_assoc] using h

theorem nsActiveUsers_ne_nsUniqueVisitors (d : String) :
    nsActiveUsers ≠ nsUniqueVisitors d := by
  have h := append_ne_of_data_get "analytics:realtime:active_users" "analytics:daily:unique_visitors:"
    "" d 10 'r' 'd' (by decide) (by decide) (by decide)
  simpa [nsActiveUsers, nsUniqueVisitors] using h

/-! ## Claim C1 -/
/-- C1: the claim that every counter/set key written by
`increment_product_view` has its TTL set by that same call fails on the
code: at the concrete failing input (`product_id = "p1"`,
`user_id = "u1"`, empty store) the call writes the daily views key
`analytics:daily:views:{date}` with no TTL at all — the increment at
redis_service.py line 21 is never followed by an `expire` — so that key
persists indefinitely, while the per-product, unique-visitors and
active-users keys do receive TTLs 86400, 86400 and 300 as claimed. -/
theorem c1_daily_views_key_written_without_ttl :
    (aget (increment_product_view "2026-10-12" "p1" (some "u1") [])
        (nsDailyViews "2026-10-12")).map Entry.ttl = some none ∧
    (aget (increment_product_view "2026-10-12" "p1" (some "u1") [])
        (nsProductViews "p1" "2026-10-12")).map Entry.ttl = some (some 86400) ∧
    (aget (increment_product_view "2026-10-12" "p1" (some "u1") [])
        (nsUniqueVisitors "2026-10-12")).map Entry.ttl = some (some 86400) ∧
    (aget (increment_product_view "2026-10-12" "p1" (some "u1") [])
        nsActiveUsers).map Entry.ttl = some (some 300) := by
  decide

/-! ## Claim C2 -/
/-- C2 counterexample: called with a negative amount and an empty product
id, `track_sale_realtime` does not fail fast: starting from the empty
store it writes all three sale keys (the daily sales accumulator even
becomes negative), so store keys are modified on invalid input. -/
theorem c2_invalid_input_still_writes :
    (aget (track_sale_realtime "2026-10-12" "" (-5) [])
        (nsDailySales "2026-10-12")).isSome = true ∧
    (aget (track_sale_realtime "2026-10-12" "" (-5) [])
        (nsDailySalesCount "2026-10-12")).isSome = true ∧
    (aget (track_sale_realtime "2026-10-12" "" (-5) [])
        (nsProductSales "" "2026-10-12")).isSome = true := by
  decide

/-- C2 (amended): `track_sale_realtime` performs no input validation at
all: for every amount (negative included) and every product id (empty
included) it unconditionally writes the daily sales-amount, daily
sales-count and per-product sales keys, setting TTL 86400 on each.  (The
`amount > 0` check lives in the excluded HTTP schema layer, not here.) -/
theorem c2_track_sale_always_writes (today pid : String) (amount : Rat)
    (s : Store) :
    (aget (track_sale_realtime today pid amount s)
        (nsDailySales today)).map Entry.ttl = some (some 86400) ∧
    (aget (track_sale_realtime today pid amount s)
        (nsDailySalesCount today)).map Entry.ttl = some (some 86400) ∧
    (aget (track_sale_realtime today pid amount s)
        (nsProductSales pid today)).map Entry.ttl = some (some 86400) := by
  have hAB := nsDailySales_ne_nsDailySalesCount today today
  have hAC := nsDailySales_ne_nsProductSales today pid today
  have hBC := nsDailySalesCount_ne_nsProductSales today pid today
  unfold track_sale_realtime
  refine ⟨?_, ?_, ?_⟩
  · rw [aget_expire_ne _ _ (Ne.symm hAC), aget_incrbyfloat_ne _ _ (Ne.symm hAC),
      aget_expire_ne _ _ (Ne.symm hAB), aget_incr_ne _ (Ne.symm hAB),
      aget_expire_self]
    obtain ⟨e, he⟩ := Option.isSome_iff_exists.mp
      (isSome_aget_incrbyfloat_self s (nsDailySales today) amount)
    rw [he]
    rfl
  · rw [aget_expire_ne _ _ (Ne.symm hBC), aget_incrbyfloat_ne _ _ (Ne.symm hBC),
      aget_expire_self]
    obtain ⟨e, he⟩ := Option.isSome_iff_exists.mp
      (isSome_aget_incr_self (expire (incrbyfloat s (nsDailySales today) amount)
        (nsDailySales today) 86400) (nsDailySalesCount today))
    rw [he]
    rfl
  · rw [aget_expire_self]
    obtain ⟨e, he⟩ := Option.isSome_iff_exists.mp
      (isSome_aget_incrbyfloat_self _ (nsProductSales pid today) amount)
    rw [he]
    rfl

/-! ## Claim C3 -/
/-- C3: for every store state, `get_realtime_metrics` returns
`conversion_rate = round(sales_count / views * 100, 2)` whenever
`views > 0` and `0.0` when `views = 0`; in particular `views = 200` and
`sales_count = 5` yield `2.5`. -/
theorem c3_conversion_rate_formula (today : String) (s : Store) :
    ((0 : Int) < readInt s (nsDailyViews today) →
      (get_realtime_metrics today s).conversion_rate =
        round2 ((readInt s (nsDailySalesCount today) : Rat) /
          (readInt s (nsDailyViews today) : Rat) * 100)) ∧
    (readInt s (nsDailyViews today) = 0 →
      (get_realtime_metrics today s).conversion_rate = 0) ∧
    (readInt s (nsDailyViews today) = 200 →
      readInt s (nsDailySalesCount today) = 5 →
      (get_realtime_metrics today s).conversion_rate = 5 / 2) := by
  refine ⟨?_, ?_, ?_⟩
  · intro h
    simp [get_realtime_metrics, if_pos h]
  · intro h
    simp [get_realtime_metrics, h]
  · intro hv hs
    have h200 : (0 : Int) < readInt s (nsDailyViews today) := by
      rw [hv]
      decide
    simp only [get_realtime_metrics, hv, hs, if_pos h200]
    norm_num [round2, roundHalfEven, ratFloor]

/-- C3 witness: a concrete store holding views = 200 and sales count = 5,
on which the theorem delivers conversion rate 5/2 = 2.5. -/
theorem c3_conversion_rate_witness :
    readInt [(nsDailyViews "2026-10-12", Entry.mk (RVal.int 200) none),
        (nsDailySalesCount "2026-10-12", Entry.mk (RVal.int 5) none)]
      (nsDailyViews "2026-10-12") = 200 ∧
    (get_realtime_metrics "2026-10-12"
        [(nsDailyViews "2026-10-12", Entry.mk (RVal.int 200) none),
         (nsDailySalesCount "2026-10-12", Entry.mk (RVal.int 5) none)]).conversion_rate
      = 5 / 2 :=
  ⟨by decide,
   (c3_conversion_rate_formula "2026-10-12"
      [(nsDailyViews "2026-10-12", Entry.mk (RVal.int 200) none),
       (nsDailySalesCount "2026-10-12", Entry.mk (RVal.int 5) none)]).2.2
     (by decide) (by decide)⟩

/-! ## Claim C4 -/
/-- C4: every key absent from the store is read as zero/empty by the three
read operations — integer counters as 0, float accumulators as 0.0, sets
as cardinality 0, the ranking as the empty list — and, the reads being
total functions, no error is ever raised. -/
theorem c4_missing_keys_read_as_zero (today d pid : String) (s : Store) :
    (aget s (nsDailyViews today) = none →
      (get_realtime_metrics today s).today_views = 0) ∧
    (aget s (nsUniqueVisitors today) = none →
      (get_realtime_metrics today s).unique_visitors = 0) ∧
    (aget s (nsDailySales today) = none →
      (get_realtime_metrics today s).today_sales = 0) ∧
    (aget s (nsDailySalesCount today) = none →
      (get_realtime_metrics today s).sales_count = 0) ∧
    (aget s nsActiveUsers = none →
      (get_realtime_metrics today s).active_users = 0) ∧
    (aget s (nsTopProducts today) = none →
      (get_realtime_metrics today s).top_products = []) ∧
    (aget s (nsDailyViews d) = none → (get_daily_stats d s).views = 0) ∧
    (aget s (nsUniqueVisitors d) = none →
      (get_daily_stats d s).unique_visitors = 0) ∧
    (aget s (nsDailySales d) = none → (get_daily_stats d s).sales_amount = 0) ∧
    (aget s (nsDailySalesCount d) = none →
      (get_daily_stats d s).sales_count = 0) ∧
    (aget s (nsProductViews pid d) = none →
      (get_product_stats pid d s).views = 0) ∧
    (aget s (nsProductSales pid d) = none →
      (get_product_stats pid d s).sales = 0) := by
  refine ⟨fun h => ?_, fun h => ?_, fun h => ?_, fun h => ?_, fun h => ?_,
    fun h => ?_, fun h => ?_, fun h => ?_, fun h => ?_, fun h => ?_,
    fun h => ?_, fun h => ?_⟩ <;>
    simp [get_realtime_metrics, get_daily_stats, get_product_stats,
      readInt, readNum, scard, ztopDesc, h]

/-- C4 witness: on the empty store every key is absent and all twelve
  read-outs are zero/empty. -/
theorem c4_missing_keys_witness :
    aget ([] : Store) (nsDailyViews "2026-10-12") = none ∧
    (get_realtime_metrics "2026-10-12" ([] : Store)).today_views = 0 ∧
    (get_realtime_metrics "2026-10-12" ([] : Store)).top_products = [] ∧
    (get_daily_stats "2026-10-11" ([] : Store)).sales_amount = 0 ∧
    (get_product_stats "p1" "2026-10-11" ([] : Store)).views = 0 :=
  ⟨rfl,
   (c4_missing_keys_read_as_zero "2026-10-12" "2026-10-11" "p1" []).1 rfl,
   (c4_missing_keys_read_as_zero "2026-10-12" "2026-10-11" "p1" []).2.2.2.2.2.1 rfl,
   (c4_missing_keys_read_as_zero "2026-10-12" "2026-10-11" "p1" []).2.2.2.2.2.2.2.2.1 rfl,
   (c4_missing_keys_read_as_zero "2026-10-12" "2026-10-11" "p1" []).2.2.2.2.2.2.2.2.2.2.1 rfl⟩

theorem zGet_zbump_self (sc : List (String × Int)) (m : String) (d : Int) :
    zGet (zbump sc m d) m = zGet sc m + d := by
  induction sc with
  | nil => simp [zbump, zGet]
  | cons p rest ih =>
    by_cases hp : p.1 = m
    · simp [zbump, zGet, hp]
    · simp [zbump, zGet, hp, ih]

theorem zscore_expire (s : Store) (k m : String) (t : Nat) :
    zscore (expire s k t) k m = zscore s k m := by
  unfold zscore
  rw [aget_expire_self]
  cases aget s k with
  | none => rfl
  | some e => rfl

theorem zscore_zincrby_self (s : Store) (k m : String) (d : Int) :
    zscore (zincrby s k d m) k m = zscore s k m + d := by
  unfold zscore zincrby
  cases h1 : aget s k with
  | none => simp [aget_aset_self, zGet]
  | some e =>
    cases h2 : e.val with
    | zset sc => simp [h2, aget_aset_self, zGet_zbump_self]
    | str v => simp [h2, aget_aset_self, zGet]
    | int n => simp [h2, aget_aset_self, zGet]
    | num q => simp [h2, aget_aset_self, zGet]
    | set ms => simp [h2, aget_aset_self, zGet]

/-- C8: `update_top_products` adds each delta onto the product's score in
the day's ranking (starting from 0 for a new member), the top-products
read-out is sorted by descending score and holds at most 5 entries, and
the concrete scenario `p1 += 10`, `p2 += 30`, `p1 += 25` read back as
`p1` (35) before `p2` (30). -/
theorem c8_top_products_ranking (today pid : String) (d : Int) (s : Store) :
    (zscore (update_top_products today pid d s) (nsTopProducts today) pid
      = zscore s (nsTopProducts today) pid + d) ∧
    List.Sorted (fun a b : String × Int => b.2 ≤ a.2)
      (get_realtime_metrics today s).top_products ∧
    (get_realtime_metrics today s).top_products.length ≤ 5 ∧
    (get_realtime_metrics "2026-10-12"
      (update_top_products "2026-10-12" "p1" 25
        (update_top_products "2026-10-12" "p2" 30
          (update_top_products "2026-10-12" "p1" 10 [])))).top_products
      = [("p1", 35), ("p2", 30)] := by
  refine ⟨?_, ?_, ?_, by decide⟩
  · unfold update_top_products
    rw [zscore_expire, zscore_zincrby_self]
  · show List.Sorted _ (ztopDesc s (nsTopProducts today) 5)
    unfold ztopDesc
    cases h1 : aget s (nsTopProducts today) with
    | none => simp
    | some e =>
      cases h2 : e.val with
      | zset sc =>
        simp only [h2]
        have hs : List.Sorted zRel (List.insertionSort zRel sc) :=
          List.sorted_insertionSort zRel sc
        have ht : List.Sorted zRel ((List.insertionSort zRel sc).take 5) :=
          List.Pairwise.sublist (List.take_sublist 5 _) hs
        exact ht.imp (fun hab => by
          rcases hab with hlt | ⟨heq, hle⟩
          · exact le_of_lt hlt
          · exact le_of_eq heq.symm)
      | str v => simp [h2]
      | int n => simp [h2]
      | num q => simp [h2]
      | set ms => simp [h2]
  · show (ztopDesc s (nsTopProducts today) 5).length ≤ 5
    unfold ztopDesc
    cases h1 : aget s (nsTopProducts today) with
    | none => simp
    | some e =>
      cases h2 : e.val with
      | zset sc =>
        simp only [h2]
        exact List.length_take_le 5 _
      | str v => simp [h2]
      | int n => simp [h2]
      | num q => simp [h2]
      | set ms => simp [h2]

/-! ## Claim C9 -/
theorem aget_sadd_self_set (t : Store) (k m : String) :
    ∃ ms ttl, aget (sadd t k m) k = some ⟨RVal.set ms, ttl⟩ ∧ m ∈ ms := by
  unfold sadd
  cases h1 : aget t k with
  | none => exact ⟨[m], none, by simp [aget_aset_self], by simp⟩
  | some e =>
    cases h2 : e.val with
    | set ms =>
      by_cases hm : m ∈ ms
      · refine ⟨ms, e.ttl, ?_, hm⟩
        simp only [h2, if_pos hm]
        rw [h1, ← h2]
      · exact ⟨ms ++ [m], e.ttl, by simp [h2, hm, aget_aset_self], by simp⟩
    | str v => exact ⟨[m], e.ttl, by simp [h2, aget_aset_self], by simp⟩
    | int n => exact ⟨[m], e.ttl, by simp [h2, aget_aset_self], by simp⟩
    | num q => exact ⟨[m], e.ttl, by simp [h2, aget_aset_self], by simp⟩
    | zset sc => exact ⟨[m], e.ttl, by simp [h2, aget_aset_self], by simp⟩

/-- When the set at `k` already contains `m`, `SADD` is exactly a no-op. -/
theorem sadd_mem_noop (t : Store) (k m : String) (ms : List String)
    (ttl : Option Nat) (h : aget t k = some ⟨RVal.set ms, ttl⟩) (hm : m ∈ ms) :
    sadd t k m = t := by
  unfold sadd
  rw [h]
  simp [hm]

/-- The first three commands of `increment_product_view` (daily and
per-product view increments plus the per-product expire) never touch the
unique-visitors key. -/
theorem aget_ipv_prefix_unique (today pid : String) (t : Store) :
    aget (expire (incr (incr t (nsDailyViews today)) (nsProductViews pid today))
        (nsProductViews pid today) 86400) (nsUniqueVisitors today)
      = aget t (nsUniqueVisitors today) := by
  rw [aget_expire_ne _ _ (Ne.symm (nsUniqueVisitors_ne_nsProductViews today pid today)),
    aget_incr_ne _ (Ne.symm (nsUniqueVisitors_ne_nsProductViews today pid today)),
    aget_incr_ne _ (Ne.symm (nsUniqueVisitors_ne_nsDailyViews today today))]

/-- A falsy (empty-string) user id leaves the unique-visitors key untouched. -/
theorem aget_ipv_unique_empty_user (today pid : String) (t : Store) :
    aget (increment_product_view today pid (some "") t) (nsUniqueVisitors today)
      = aget t (nsUniqueVisitors today) := by
  show aget (expire (incr (incr t (nsDailyViews today)) (nsProductViews pid today))
      (nsProductViews pid today) 86400) (nsUniqueVisitors today)
    = aget t (nsUniqueVisitors today)
  exact aget_ipv_prefix_unique today pid t

/-- After one `increment_product_view` with a truthy user id, the
unique-visitors key holds a set containing the user, with TTL 86400. -/
theorem aget_ipv_unique_after (today pid u : String) (hu : u ≠ "") (t : Store) :
    ∃ l, aget (increment_product_view today pid (some u) t)
        (nsUniqueVisitors today) = some ⟨RVal.set l, some 86400⟩ ∧ u ∈ l := by
  unfold increment_product_view
  simp only [if_neg hu]
  set s3 := expire (incr (incr t (nsDailyViews today)) (nsProductViews pid today))
    (nsProductViews pid today) 86400 with hs3
  obtain ⟨ms, ttl, hms, hmem⟩ := aget_sadd_self_set s3 (nsUniqueVisitors today) u
  refine ⟨ms, ?_, hmem⟩
  rw [aget_expire_ne _ _ (nsActiveUsers_ne_nsUniqueVisitors today),
    aget_sadd_ne _ _ (nsActiveUsers_ne_nsUniqueVisitors today),
    aget_expire_self, hms]
  rfl

/-- Once the unique-visitors key holds a set containing the user with TTL
86400, a further `increment_product_view` with the same user leaves that
key's entry unchanged. -/
theorem aget_ipv_unique_stable (today pid u : String) (hu : u ≠ "") (t : Store)
    (l : List String) (hm : u ∈ l)
    (hl : aget t (nsUniqueVisitors today) = some ⟨RVal.set l, some 86400⟩) :
    aget (increment_product_view today pid (some u) t) (nsUniqueVisitors today)
      = some ⟨RVal.set l, some 86400⟩ := by
  unfold increment_product_view
  simp only [if_neg hu]
  set s3 := expire (incr (incr t (nsDailyViews today)) (nsProductViews pid today))
    (nsProductViews pid today) 86400 with hs3
  have h3 : aget s3 (nsUniqueVisitors today) = some ⟨RVal.set l, some 86400⟩ := by
    rw [hs3, aget_ipv_prefix_unique]
    exact hl
  have hnoop : sadd s3 (nsUniqueVisitors today) u = s3 :=
    sadd_mem_noop s3 (nsUniqueVisitors today) u l (some 86400) h3 hm
  rw [aget_expire_ne _ _ (nsActiveUsers_ne_nsUniqueVisitors today),
    aget_sadd_ne _ _ (nsActiveUsers_ne_nsUniqueVisitors today),
    hnoop, aget_expire_self, h3]
  rfl

/-- C9: performing `record_view` with the same user id `N ≥ 1` times on the
same day leaves the daily unique-visitors set with the same cardinality as
performing it once — set addition is idempotent, repeated adds are no-ops. -/
theorem c9_repeat_view_unique_cardinality (today pid u : String) (s : Store)
    (N : Nat) (hN : 1 ≤ N) :
    scard ((fun t => increment_product_view today pid (some u) t)^[N] s)
        (nsUniqueVisitors today)
      = scard (increment_product_view today pid (some u) s)
          (nsUniqueVisitors today) := by
  set f := fun t => increment_product_view today pid (some u) t with hf
  obtain ⟨m, rfl⟩ : ∃ m, N = m + 1 := ⟨N - 1, (Nat.succ_pred_eq_of_pos hN).symm⟩
  clear hN
  rw [Function.iterate_succ_apply]
  by_cases hu : u = ""
  · subst hu
    have hstep : ∀ t, aget (f t) (nsUniqueVisitors today)
        = aget t (nsUniqueVisitors today) := fun t =>
      aget_ipv_unique_empty_user today pid t
    have hall : aget (f^[m] (f s)) (nsUniqueVisitors today)
        = aget (f s) (nsUniqueVisitors today) := by
      induction m with
      | zero => rfl
      | succ m2 ih =>
        rw [Function.iterate_succ_apply']
        rw [hstep, ih]
    unfold scard
    rw [hall]
  · obtain ⟨l, hl, hm⟩ := aget_ipv_unique_after today pid u hu s
    have hall : aget (f^[m] (f s)) (nsUniqueVisitors today)
        = some ⟨RVal.set l, some 86400⟩ := by
      induction m with
      | zero => exact hl
      | succ m2 ih =>
        rw [Function.iterate_succ_apply']
        exact aget_ipv_unique_stable today pid u hu _ l hm ih
    unfold scard
    rw [hall, hl]

/-- C9 witness: three consecutive views by user `u1` leave the same
unique-visitor cardinality as one view. -/
theorem c9_repeat_view_witness :
    1 ≤ 3 ∧
    scard ((fun t => increment_product_view "2026-10-12" "p1" (some "u1") t)^[3] [])
        (nsUniqueVisitors "2026-10-12")
      = scard (increment_product_view "2026-10-12" "p1" (some "u1") [])
          (nsUniqueVisitors "2026-10-12") :=
  ⟨by decide, c9_repeat_view_unique_cardinality "2026-10-12" "p1" "u1" [] 3 (by decide)⟩

/-! ## Character-level facts for the round-trip proof -/
theorem digitChar_isDigit : ∀ d, d < 10 → isDigitChar (digitChar d) = true ∧
    (digitChar d).toNat = 48 + d := by decide

theorem hexVal_hexChar : ∀ n, n < 16 → hexVal (hexChar n) = some n := by decide

theorem isDigitChar_bounds (c : Char) (h : isDigitChar c = true) :
    48 ≤ c.toNat ∧ c.toNat ≤ 57 := by
  simpa [isDigitChar] using h

/-- A decimal digit is none of the characters the value parser inspects
first, and is not whitespace. -/
theorem digit_not_special (c : Char) (h : isDigitChar c = true) :
    c ≠ quoteChar ∧ c ≠ '[' ∧ c ≠ lbraceChar ∧ c ≠ 'n' ∧ c ≠ 't' ∧ c ≠ 'f' ∧
      c ≠ ']' ∧ c ≠ ',' ∧ c ≠ '-' ∧ isWsChar c = false := by
  refine ⟨fun e => absurd (e ▸ h) (by decide), fun e => absurd (e ▸ h) (by decide),
    fun e => absurd (e ▸ h) (by decide), fun e => absurd (e ▸ h) (by decide),
    fun e => absurd (e ▸ h) (by decide), fun e => absurd (e ▸ h) (by decide),
    fun e => absurd (e ▸ h) (by decide), fun e => absurd (e ▸ h) (by decide),
    fun e => absurd (e ▸ h) (by decide), ?_⟩
  by_contra hw
  have hw2 : isWsChar c = true := by
    cases h2 : isWsChar c
    · exact absurd h2 hw
    · rfl
  simp only [isWsChar, Bool.or_eq_true, decide_eq_true_eq] at hw2
  rcases hw2 with ((e | e) | e) | e <;> exact absurd (e ▸ h) (by decide)

theorem skipWs_not_ws {c : Char} (cs : List Char) (h : isWsChar c = false) :
    skipWs (c :: cs) = c :: cs := by
  simp [skipWs, h]

/-- With enough fuel, `serNatAux` emits at least one character, all of them
digits. -/
theorem serNatAux_shape : ∀ fuel n, n < fuel →
    ∃ d ds, serNatAux fuel n = d :: ds ∧ isDigitChar d = true ∧
      ∀ c ∈ serNatAux fuel n, isDigitChar c = true := by
  intro fuel
  induction fuel with
  | zero => omega
  | succ f ih =>
    intro n hn
    by_cases h10 : n < 10
    · refine ⟨digitChar n, [], by simp [serNatAux, h10], (digitChar_isDigit n h10).1, ?_⟩
      intro c hc
      simp only [serNatAux, if_pos h10, List.mem_singleton] at hc
      exact hc ▸ (digitChar_isDigit n h10).1
    · have hdiv : n / 10 < f := by
        have h1 : n / 10 < n := Nat.div_lt_self (by omega) (by omega)
        omega
      obtain ⟨d, ds, hds, hd, hall⟩ := ih (n / 10) hdiv
      refine ⟨d, ds ++ [digitChar (n % 10)], by simp [serNatAux, h10, hds], hd, ?_⟩
      intro c hc
      simp only [serNatAux, if_neg h10, List.mem_append, List.mem_singleton] at hc
      rcases hc with hc | rfl
      · exact hall c hc
      · exact (digitChar_isDigit (n % 10) (Nat.mod_lt _ (by omega))).1

/-- Processing the digits of `n` multiplies the accumulator by the right
power of ten and adds `n`, leaving the tail untouched. -/
theorem parseDigits_serNatAux : ∀ fuel n acc rest, n < fuel →
    parseDigits acc (serNatAux fuel n ++ rest)
      = parseDigits (acc * 10 ^ (serNatAux fuel n).length + n) rest := by
  intro fuel
  induction fuel with
  | zero => omega
  | succ f ih =>
    intro n acc rest hn
    by_cases h10 : n < 10
    · have hd := digitChar_isDigit n h10
      simp only [serNatAux, if_pos h10, List.singleton_append, parseDigits,
        if_pos hd.1, hd.2, List.length_singleton, pow_one]
      have he : 10 * acc + (48 + n - 48) = acc * 10 + n := by omega
      rw [he]
    · have hdiv : n / 10 < f := by
        have h1 : n / 10 < n := Nat.div_lt_self (by omega) (by omega)
        omega
      have hd := digitChar_isDigit (n % 10) (Nat.mod_lt _ (by omega))
      simp only [serNatAux, if_neg h10, List.append_assoc, List.singleton_append]
      rw [ih (n / 10) acc (digitChar (n % 10) :: rest) hdiv]
      simp only [parseDigits, if_pos hd.1, hd.2]
      have he : 10 * (acc * 10 ^ (serNatAux f (n / 10)).length + n / 10) +
          (48 + n % 10 - 48)
          = acc * 10 ^ (serNatAux f (n / 10) ++ [digitChar (n % 10)]).length + n := by
        simp only [List.length_append, List.length_singleton]
        have hm : 10 * (n / 10) + n % 10 = n := Nat.div_add_mod n 10
        have h48 : 48 + n % 10 - 48 = n % 10 := by omega
        rw [h48, pow_succ, Nat.mul_add]
        calc 10 * (acc * 10 ^ (serNatAux f (n / 10)).length) + 10 * (n / 10) + n % 10
            = acc * 10 ^ (serNatAux f (n / 10)).length * 10 +
              (10 * (n / 10) + n % 10) := by ring
          _ = acc * (10 ^ (serNatAux f (n / 10)).length * 10) + n := by rw [hm]; ring
      rw [he]

theorem parseDigits_stop (acc : Nat) (rest : List Char)
    (h : headNotDigit rest = true) : parseDigits acc rest = (acc, rest) := by
  cases rest with
  | nil => rfl
  | cons c cs =>
    simp only [headNotDigit, Bool.not_eq_true'] at h
    simp [parseDigits, h]

theorem parseDigits_serNat (n : Nat) (rest : List Char)
    (h : headNotDigit rest = true) :
    parseDigits 0 (serNat n ++ rest) = (n, rest) := by
  unfold serNat
  rw [parseDigits_serNatAux (n + 1) n 0 rest (by omega)]
  simp [parseDigits_stop _ _ h]

theorem parseIntTok_serInt (n : Int) (rest : List Char)
    (h : headNotDigit rest = true) :
    parseIntTok (serInt n ++ rest) = some (n, rest) := by
  by_cases hn : n < 0
  · obtain ⟨d, ds, hds, hd, _⟩ := serNatAux_shape (n.natAbs + 1) n.natAbs (by omega)
    have hser : serNat n.natAbs = d :: ds := hds
    have hpd : parseDigits 0 (d :: (ds ++ rest)) = (n.natAbs, rest) := by
      have h2 := parseDigits_serNat n.natAbs rest h
      rwa [hser, List.cons_append] at h2
    have habs : -((n.natAbs : Nat) : Int) = n := by omega
    simp only [serInt, if_pos hn, hser, List.cons_append, parseIntTok]
    simp [hd, hpd]
    rw [abs_of_neg hn]
    omega
  · obtain ⟨d, ds, hds, hd, _⟩ := serNatAux_shape (n.toNat + 1) n.toNat (by omega)
    have hser : serNat n.toNat = d :: ds := hds
    have hdash : d ≠ '-' := (digit_not_special d hd).2.2.2.2.2.2.2.2.1
    have hpd : parseDigits 0 (d :: (ds ++ rest)) = (n.toNat, rest) := by
      have h2 := parseDigits_serNat n.toNat rest h
      rwa [hser, List.cons_append] at h2
    have htn : ((n.toNat : Nat) : Int) = n := by omega
    simp only [serInt, if_neg hn, hser, List.cons_append, parseIntTok]
    simp [hdash, hd, hpd, htn]

/-- One-step unfoldings of `parseStrBody`, all definitional. -/
theorem parseStrBody_quote (cs : List Char) :
    parseStrBody (quoteChar :: cs) = some ([], cs) := by
  conv_lhs => rw [parseStrBody.eq_def]
  simp

theorem parseStrBody_esc_quote (L : List Char) :
    parseStrBody (backslashChar :: quoteChar :: L)
      = (parseStrBody L).map (fun r => (quoteChar :: r.1, r.2)) := by
  conv_lhs => rw [parseStrBody.eq_def]
  simp [quoteChar, backslashChar]

theorem parseStrBody_esc_backslash (L : List Char) :
    parseStrBody (backslashChar :: backslashChar :: L)
      = (parseStrBody L).map (fun r => (backslashChar :: r.1, r.2)) := by
  conv_lhs => rw [parseStrBody.eq_def]
  simp [quoteChar, backslashChar]

theorem parseStrBody_esc_b (L : List Char) :
    parseStrBody (backslashChar :: 'b' :: L)
      = (parseStrBody L).map (fun r => (Char.ofNat 8 :: r.1, r.2)) := by
  conv_lhs => rw [parseStrBody.eq_def]
  simp [quoteChar, backslashChar]

theorem parseStrBody_esc_t (L : List Char) :
    parseStrBody (backslashChar :: 't' :: L)
      = (parseStrBody L).map (fun r => (Char.ofNat 9 :: r.1, r.2)) := by
  conv_lhs => rw [parseStrBody.eq_def]
  simp [quoteChar, backslashChar]

theorem parseStrBody_esc_n (L : List Char) :
    parseStrBody (backslashChar :: 'n' :: L)
      = (parseStrBody L).map (fun r => (Char.ofNat 10 :: r.1, r.2)) := by
  conv_lhs => rw [parseStrBody.eq_def]
  simp [quoteChar, backslashChar]

theorem parseStrBody_esc_f (L : List Char) :
    parseStrBody (backslashChar :: 'f' :: L)
      = (parseStrBody L).map (fun r => (Char.ofNat 12 :: r.1, r.2)) := by
  conv_lhs => rw [parseStrBody.eq_def]
  simp [quoteChar, backslashChar]

theorem parseStrBody_esc_r (L : List Char) :
    parseStrBody (backslashChar :: 'r' :: L)
      = (parseStrBody L).map (fun r => (Char.ofNat 13 :: r.1, r.2)) := by
  conv_lhs => rw [parseStrBody.eq_def]
  simp [quoteChar, backslashChar]

theorem parseStrBody_esc_u (x1 x2 x3 x4 : Char) (L : List Char) :
    parseStrBody (backslashChar :: 'u' :: x1 :: x2 :: x3 :: x4 :: L)
      = match hexVal x1, hexVal x2, hexVal x3, hexVal x4 with
        | some a, some b, some c2, some d =>
          (parseStrBody L).map
            (fun r => (Char.ofNat (4096 * a + 256 * b + 16 * c2 + d) :: r.1, r.2))
        | _, _, _, _ => none := by
  conv_lhs => rw [parseStrBody.eq_def]
  simp [quoteChar, backslashChar]

theorem parseStrBody_plain (c : Char) (h1 : c ≠ quoteChar)
    (h2 : c ≠ backslashChar) (L : List Char) :
    parseStrBody (c :: L) = (parseStrBody L).map (fun r => (c :: r.1, r.2)) := by
  conv_lhs => rw [parseStrBody.eq_def]
  simp [h1, h2]

/-- Parsing an escaped string body recovers exactly the original
characters, consuming the closing quote. -/
theorem parseStrBody_escape (cs : List Char) : ∀ rest : List Char,
    parseStrBody (escapeList cs ++ (quoteChar :: rest)) = some (cs, rest) := by
  induction cs with
  | nil =>
    intro rest
    exact parseStrBody_quote rest
  | cons c cs ih =>
    intro rest
    show parseStrBody ((escapeChar c ++ escapeList cs) ++ (quoteChar :: rest)) = _
    rw [List.append_assoc]
    unfold escapeChar
    by_cases h1 : c = quoteChar
    · subst h1
      rw [if_pos rfl]
      simp only [List.cons_append, List.nil_append]
      rw [parseStrBody_esc_quote, ih]
      rfl
    · rw [if_neg h1]
      by_cases h2 : c = backslashChar
      · subst h2
        rw [if_pos rfl]
        simp only [List.cons_append, List.nil_append]
        rw [parseStrBody_esc_backslash, ih]
        rfl
      · rw [if_neg h2]
        by_cases h3 : c = Char.ofNat 8
        · subst h3
          rw [if_pos rfl]
          simp only [List.cons_append, List.nil_append]
          rw [parseStrBody_esc_b, ih]
          rfl
        · rw [if_neg h3]
          by_cases h4 : c = Char.ofNat 9
          · subst h4
            rw [if_pos rfl]
            simp only [List.cons_append, List.nil_append]
            rw [parseStrBody_esc_t, ih]
            rfl
          · rw [if_neg h4]
            by_cases h5 : c = Char.ofNat 10
            · subst h5
              rw [if_pos rfl]
              simp only [List.cons_append, List.nil_append]
              rw [parseStrBody_esc_n, ih]
              rfl
            · rw [if_neg h5]
              by_cases h6 : c = Char.ofNat 12
              · subst h6
                rw [if_pos rfl]
                simp only [List.cons_append, List.nil_append]
                rw [parseStrBody_esc_f, ih]
                rfl
              · rw [if_neg h6]
                by_cases h7 : c = Char.ofNat 13
                · subst h7
                  rw [if_pos rfl]
                  simp only [List.cons_append, List.nil_append]
                  rw [parseStrBody_esc_r, ih]
                  rfl
                · rw [if_neg h7]
                  by_cases h8 : c.toNat < 32
                  · rw [if_pos h8]
                    have hhi : c.toNat / 16 < 16 := by omega
                    have hlo : c.toNat % 16 < 16 := Nat.mod_lt _ (by omega)
                    simp only [List.cons_append, List.nil_append]
                    rw [parseStrBody_esc_u]
                    simp only [show hexVal '0' = some 0 from rfl,
                      hexVal_hexChar (c.toNat / 16) hhi,
                      hexVal_hexChar (c.toNat % 16) hlo]
                    have hc : 4096 * 0 + 256 * 0 + 16 * (c.toNat / 16) + c.toNat % 16
                        = c.toNat := by omega
                    rw [hc, Char.ofNat_toNat, ih]
                    rfl
                  · rw [if_neg h8]
                    simp only [List.cons_append, List.nil_append]
                    rw [parseStrBody_plain c h1 h2, ih]
                    rfl

/-- Structural induction for `Json` with element-wise hypotheses for the
nested lists. -/
theorem Json.indOn {P : Json → Prop} (hnull : P Json.null)
    (hbool : ∀ b, P (Json.bool b)) (hnum : ∀ n, P (Json.num n))
    (hstr : ∀ s, P (Json.str s))
    (harr : ∀ items, (∀ x ∈ items, P x) → P (Json.arr items))
    (hobj : ∀ fields, (∀ p ∈ fields, P p.2) → P (Json.obj fields)) :
    ∀ v, P v
  | Json.null => hnull
  | Json.bool b => hbool b
  | Json.num n => hnum n
  | Json.str s => hstr s
  | Json.arr items =>
    harr items (fun x hx =>
      Json.indOn hnull hbool hnum hstr harr hobj x)
  | Json.obj fields =>
    hobj fields (fun p hp =>
      Json.indOn hnull hbool hnum hstr harr hobj p.2)
termination_by v => sizeOf v
decreasing_by
  · have h1 := List.sizeOf_lt_of_mem hx
    simp only [Json.arr.sizeOf_spec]
    omega
  · have h1 : sizeOf p.2 < sizeOf p := by
      cases p
      simp only [Prod.mk.sizeOf_spec]
      omega
    have h2 := List.sizeOf_lt_of_mem hp
    simp only [Json.obj.sizeOf_spec]
    omega

theorem parseVal_ws (fuel : Nat) (c : Char) (cs : List Char)
    (h : isWsChar c = true) : parseVal fuel (c :: cs) = parseVal fuel cs := by
  cases fuel with
  | zero => rfl
  | succ f =>
    have hskip : skipWs (c :: cs) = skipWs cs := by
      rw [skipWs.eq_def]
      simp [h]
    conv_lhs => simp only [parseVal]
    conv_rhs => simp only [parseVal]
    rw [hskip]

theorem parseItems_ws (fuel : Nat) (c : Char) (cs : List Char)
    (h : isWsChar c = true) : parseItems fuel (c :: cs) = parseItems fuel cs := by
  cases fuel with
  | zero => rfl
  | succ f =>
    conv_lhs => simp only [parseItems]
    conv_rhs => simp only [parseItems]
    rw [parseVal_ws f c cs h]

theorem parseMembers_ws (fuel : Nat) (c : Char) (cs : List Char)
    (h : isWsChar c = true) : parseMembers fuel (c :: cs) = parseMembers fuel cs := by
  cases fuel with
  | zero => rfl
  | succ f =>
    have hskip : skipWs (c :: cs) = skipWs cs := by
      rw [skipWs.eq_def]
      simp [h]
    conv_lhs => simp only [parseMembers]
    conv_rhs => simp only [parseMembers]
    rw [hskip]

theorem wfKeysItems_mem (l : List Json) (h : wfKeysItems l = true) :
    ∀ x ∈ l, wfKeys x = true := by
  induction l with
  | nil => simp
  | cons y ys ih =>
    simp only [wfKeysItems, Bool.and_eq_true] at h
    intro x hx
    rcases List.mem_cons.mp hx with rfl | hx
    · exact h.1
    · exact ih h.2 x hx

theorem wfKeysFields_mem (l : List (String × Json)) (h : wfKeysFields l = true) :
    ∀ p ∈ l, wfKeys p.2 = true := by
  induction l with
  | nil => simp
  | cons q qs ih =>
    simp only [wfKeysFields, Bool.and_eq_true] at h
    intro p hp
    rcases List.mem_cons.mp hp with rfl | hp
    · exact h.1
    · exact ih h.2 p hp

theorem keysNodup_not_contains (k : String) (ks : List String)
    (h : keysNodup (k :: ks) = true) : k ∉ ks ∧ keysNodup ks = true := by
  simp only [keysNodup, Bool.and_eq_true, Bool.not_eq_true'] at h
  refine ⟨fun hm => ?_, h.2⟩
  have := h.1
  rw [List.contains_eq_any_beq] at this
  have h2 : ks.any (k == ·) = true := by
    rw [List.any_eq_true]
    exact ⟨k, hm, by simp⟩
  rw [h2] at this
  cases this

theorem keysNodup_append_not_mem (as : List String) (k : String)
    (bs : List String) (h : keysNodup (as ++ k :: bs) = true) : k ∉ as := by
  induction as with
  | nil => simp
  | cons a as ih =>
    obtain ⟨hni, htl⟩ := keysNodup_not_contains _ _ h
    intro hm
    rcases List.mem_cons.mp hm with rfl | hm2
    · exact hni (by simp)
    · exact ih htl hm2

theorem upsertField_append (acc : List (String × Json)) (k : String) (v : Json)
    (h : ∀ q ∈ acc, q.1 ≠ k) : upsertField acc k v = acc ++ [(k, v)] := by
  induction acc with
  | nil => rfl
  | cons q qs ih =>
    have hq : q.1 ≠ k := h q (List.mem_cons_self _ _)
    simp only [upsertField, if_neg hq, List.cons_append]
    rw [ih (fun r hr => h r (List.mem_cons_of_mem _ hr))]

theorem foldl_upsert_append (l : List (String × Json)) : ∀ acc,
    keysNodup ((acc ++ l).map Prod.fst) = true →
    l.foldl (fun acc p => upsertField acc p.1 p.2) acc = acc ++ l := by
  induction l with
  | nil =>
    intro acc h
    simp
  | cons p ps ih =>
    intro acc h
    have hsplit : (acc ++ p :: ps).map Prod.fst
        = acc.map Prod.fst ++ p.1 :: ps.map Prod.fst := by
      simp
    rw [hsplit] at h
    have hnotin : ∀ q ∈ acc, q.1 ≠ p.1 := by
      intro q hq he
      have hnm : p.1 ∉ acc.map Prod.fst := keysNodup_append_not_mem _ _ _ h
      exact hnm (List.mem_map.mpr ⟨q, hq, he⟩)
    simp only [List.foldl_cons]
    rw [upsertField_append acc p.1 p.2 hnotin]
    have hre : (acc ++ [(p.1, p.2)]) ++ ps = acc ++ p :: ps := by
      simp
    have h2 : keysNodup (((acc ++ [(p.1, p.2)]) ++ ps).map Prod.fst) = true := by
      rw [hre, hsplit]
      exact h
    rw [ih (acc ++ [(p.1, p.2)]) h2, hre]

/-- On duplicate-free keys — always the case for output of `json.dumps` of
a Python dict — the dict-rebuilding pass is the identity. -/
theorem dedupFields_eq_self (l : List (String × Json))
    (h : keysNodup (l.map Prod.fst) = true) : dedupFields l = l := by
  unfold dedupFields
  have := foldl_upsert_append l [] (by simpa using h)
  simpa using this

theorem serNat_head (m : Nat) :
    ∃ d ds, serNat m = d :: ds ∧ isDigitChar d = true := by
  obtain ⟨d, ds, hds, hd, _⟩ := serNatAux_shape (m + 1) m (by omega)
  exact ⟨d, ds, hds, hd⟩

/-- The serialization of any value starts with a printable, non-whitespace
character that is neither a closing bracket nor a closing brace. -/
theorem serJson_head (v : Json) :
    ∃ c cs, serJson v = c :: cs ∧ isWsChar c = false ∧ c ≠ ']' ∧
      c ≠ rbraceChar := by
  cases v with
  | num n =>
    by_cases hn : n < 0
    · refine ⟨'-', serNat n.natAbs, by simp [serJson, serInt, hn], ?_, ?_, ?_⟩ <;>
        decide
    · obtain ⟨d, ds, hds, hd⟩ := serNat_head n.toNat
      have hdns := digit_not_special d hd
      refine ⟨d, ds, by simp [serJson, serInt, hn, hds],
        hdns.2.2.2.2.2.2.2.2.2, hdns.2.2.2.2.2.2.1, fun he => ?_⟩
      exact absurd (he ▸ hd) (by decide)
  | bool b =>
    cases b with
    | true => refine ⟨'t', _, rfl, ?_, ?_, ?_⟩ <;> decide
    | false => refine ⟨'f', _, rfl, ?_, ?_, ?_⟩ <;> decide
  | null => refine ⟨'n', _, rfl, ?_, ?_, ?_⟩ <;> decide
  | str s => refine ⟨quoteChar, _, rfl, ?_, ?_, ?_⟩ <;> decide
  | arr items => refine ⟨'[', _, rfl, ?_, ?_, ?_⟩ <;> decide
  | obj fields => refine ⟨lbraceChar, _, rfl, ?_, ?_, ?_⟩ <;> decide

/-- Parsing the serialized elements of a non-empty array consumes the
closing bracket and returns the elements. -/
theorem parseItems_serItems : ∀ l : List Json,
    (∀ x ∈ l, ∀ fuel rest, jfuel x ≤ fuel → wfKeys x = true →
      headNotDigit rest = true → parseVal fuel (serJson x ++ rest) = some (x, rest)) →
    wfKeysItems l = true → l ≠ [] →
    ∀ fuel rest, jfuelItems l ≤ fuel → headNotDigit rest = true →
      parseItems fuel (serItems l ++ (']' :: rest)) = some (l, rest) := by
  intro l
  induction l with
  | nil => intro _ _ hne; exact absurd rfl hne
  | cons x xs ih =>
    intro IH hwf _ fuel rest hfuel hnd
    obtain ⟨f, rfl⟩ : ∃ f, fuel = f + 1 := by
      refine ⟨fuel - 1, ?_⟩
      simp [jfuelItems] at hfuel
      omega
    have hfx : jfuel x ≤ f := by
      simp [jfuelItems] at hfuel
      omega
    obtain ⟨hwx, hwxs⟩ : wfKeys x = true ∧ wfKeysItems xs = true := by
      simpa [wfKeysItems] using hwf
    simp only [parseItems]
    cases xs with
    | nil =>
      rw [show serItems [x] = serJson x from rfl,
        IH x (List.mem_cons_self _ _) f (']' :: rest) hfx hwx (by rfl)]
      have hsk : skipWs (']' :: rest) = ']' :: rest := skipWs_not_ws _ (by decide)
      simp [hsk]
    | cons y ys =>
      rw [show serItems (x :: y :: ys) = serJson x ++ (',' :: ' ' :: serItems (y :: ys))
          from rfl]
      rw [List.append_assoc,
        IH x (List.mem_cons_self _ _) f _ hfx hwx (by rfl)]
      have hws : parseItems f (' ' :: (serItems (y :: ys) ++ (']' :: rest)))
          = parseItems f (serItems (y :: ys) ++ (']' :: rest)) :=
        parseItems_ws f ' ' _ (by decide)
      have hfxs : jfuelItems (y :: ys) ≤ f := by
        simp [jfuelItems] at hfuel ⊢
        omega
      have hih := ih (fun z hz => IH z (List.mem_cons_of_mem _ hz)) hwxs (by simp)
        f rest hfxs hnd
      have hsk : skipWs (',' :: (' ' :: (serItems (y :: ys) ++ (']' :: rest))))
          = ',' :: (' ' :: (serItems (y :: ys) ++ (']' :: rest))) :=
        skipWs_not_ws _ (by decide)
      simp [hsk, hws, hih]

/-- Parsing the serialized members of a non-empty object consumes the
closing brace and returns the members in order. -/
theorem parseMembers_serFields : ∀ l : List (String × Json),
    (∀ p ∈ l, ∀ fuel rest, jfuel p.2 ≤ fuel → wfKeys p.2 = true →
      headNotDigit rest = true →
      parseVal fuel (serJson p.2 ++ rest) = some (p.2, rest)) →
    wfKeysFields l = true → l ≠ [] →
    ∀ fuel rest, jfuelFields l ≤ fuel → headNotDigit rest = true →
      parseMembers fuel (serFields l ++ (rbraceChar :: rest)) = some (l, rest) := by
  intro l
  induction l with
  | nil => intro _ _ hne; exact absurd rfl hne
  | cons p ps ih =>
    intro IH hwf _ fuel rest hfuel hnd
    obtain ⟨f, rfl⟩ : ∃ f, fuel = f + 1 := by
      refine ⟨fuel - 1, ?_⟩
      simp [jfuelFields] at hfuel
      omega
    have hfp : jfuel p.2 ≤ f := by
      simp [jfuelFields] at hfuel
      omega
    obtain ⟨hwp, hwps⟩ : wfKeys p.2 = true ∧ wfKeysFields ps = true := by
      simpa [wfKeysFields] using hwf
    simp only [parseMembers]
    cases ps with
    | nil =>
      have hshape : serFields [p] ++ (rbraceChar :: rest)
          = quoteChar :: (escapeList p.1.data ++
              (quoteChar :: (':' :: (' ' :: (serJson p.2 ++ (rbraceChar :: rest)))))) := by
        simp [serFields, serStr]
      rw [hshape]
      have hskq : skipWs (quoteChar :: (escapeList p.1.data ++
          (quoteChar :: (':' :: (' ' :: (serJson p.2 ++ (rbraceChar :: rest)))))))
          = quoteChar :: (escapeList p.1.data ++
              (quoteChar :: (':' :: (' ' :: (serJson p.2 ++ (rbraceChar :: rest)))))) :=
        skipWs_not_ws _ (by decide)
      have hesc := parseStrBody_escape p.1.data
        (':' :: (' ' :: (serJson p.2 ++ (rbraceChar :: rest))))
      have hskc : skipWs (':' :: (' ' :: (serJson p.2 ++ (rbraceChar :: rest))))
          = ':' :: (' ' :: (serJson p.2 ++ (rbraceChar :: rest))) :=
        skipWs_not_ws _ (by decide)
      have hv : parseVal f (' ' :: (serJson p.2 ++ (rbraceChar :: rest)))
          = some (p.2, rbraceChar :: rest) := by
        rw [parseVal_ws f ' ' _ (by decide)]
        exact IH p (List.mem_cons_self _ _) f _ hfp hwp (by rfl)
      have hskb : skipWs (rbraceChar :: rest) = rbraceChar :: rest :=
        skipWs_not_ws _ (by decide)
      simp [hskq, hesc, hskc, hv, hskb, show ¬rbraceChar = ',' from by decide]
    | cons q qs =>
      have hshape : serFields (p :: q :: qs) ++ (rbraceChar :: rest)
          = quoteChar :: (escapeList p.1.data ++
              (quoteChar :: (':' :: (' ' :: (serJson p.2 ++
                (',' :: (' ' :: (serFields (q :: qs) ++ (rbraceChar :: rest))))))))) := by
        simp [serFields, serStr]
      rw [hshape]
      have hskq : skipWs (quoteChar :: (escapeList p.1.data ++
          (quoteChar :: (':' :: (' ' :: (serJson p.2 ++
            (',' :: (' ' :: (serFields (q :: qs) ++ (rbraceChar :: rest))))))))))
          = quoteChar :: (escapeList p.1.data ++
              (quoteChar :: (':' :: (' ' :: (serJson p.2 ++
                (',' :: (' ' :: (serFields (q :: qs) ++ (rbraceChar :: rest))))))))) :=
        skipWs_not_ws _ (by decide)
      have hesc := parseStrBody_escape p.1.data
        (':' :: (' ' :: (serJson p.2 ++
          (',' :: (' ' :: (serFields (q :: qs) ++ (rbraceChar :: rest)))))))
      have hskc : skipWs (':' :: (' ' :: (serJson p.2 ++
          (',' :: (' ' :: (serFields (q :: qs) ++ (rbraceChar :: rest)))))))
          = ':' :: (' ' :: (serJson p.2 ++
              (',' :: (' ' :: (serFields (q :: qs) ++ (rbraceChar :: rest)))))) :=
        skipWs_not_ws _ (by decide)
      have hv : parseVal f (' ' :: (serJson p.2 ++
          (',' :: (' ' :: (serFields (q :: qs) ++ (rbraceChar :: rest))))))
          = some (p.2, ',' :: (' ' :: (serFields (q :: qs) ++ (rbraceChar :: rest)))) := by
        rw [parseVal_ws f ' ' _ (by decide)]
        exact IH p (List.mem_cons_self _ _) f _ hfp hwp (by rfl)
      have hskm : skipWs (',' :: (' ' :: (serFields (q :: qs) ++ (rbraceChar :: rest))))
          = ',' :: (' ' :: (serFields (q :: qs) ++ (rbraceChar :: rest))) :=
        skipWs_not_ws _ (by decide)
      have hfqs : jfuelFields (q :: qs) ≤ f := by
        simp [jfuelFields] at hfuel ⊢
        omega
      have hmem : parseMembers f (' ' :: (serFields (q :: qs) ++ (rbraceChar :: rest)))
          = some (q :: qs, rest) := by
        rw [parseMembers_ws f ' ' _ (by decide)]
        exact ih (fun z hz => IH z (List.mem_cons_of_mem _ hz)) hwps (by simp)
          f rest hfqs hnd
      simp [hskq, hesc, hskc, hv, hskm, hmem, show ¬rbraceChar = ',' from by decide]

theorem serFields_head (p : String × Json) (ps : List (String × Json)) :
    ∃ T, serFields (p :: ps) = quoteChar :: T := by
  cases ps with
  | nil =>
    exact ⟨(escapeList p.1.data ++ [quoteChar]) ++ (':' :: (' ' :: serJson p.2)),
      by simp [serFields, serStr]⟩
  | cons q qs =>
    exact ⟨((escapeList p.1.data ++ [quoteChar]) ++ (':' :: (' ' :: serJson p.2))) ++
      (',' :: (' ' :: serFields (q :: qs))), by simp [serFields, serStr]⟩

theorem serItems_head (x : Json) (xs : List Json) (c : Char) (ccs : List Char)
    (hcx : serJson x = c :: ccs) : ∃ T, serItems (x :: xs) = c :: T := by
  cases xs with
  | nil => exact ⟨ccs, by simp [serItems, hcx]⟩
  | cons y ys =>
    exact ⟨ccs ++ (',' :: (' ' :: serItems (y :: ys))), by simp [serItems, hcx]⟩

/-- Round trip: with enough fuel, parsing the serialization of a value with
duplicate-free object keys yields the value back and leaves the tail
(which must not begin with a digit) untouched. -/
theorem parseVal_serJson : ∀ v : Json, ∀ fuel rest, jfuel v ≤ fuel →
    wfKeys v = true → headNotDigit rest = true →
    parseVal fuel (serJson v ++ rest) = some (v, rest) := by
  intro v
  induction v using Json.indOn with
  | hnull =>
    intro fuel rest hfuel hwf hnd
    obtain ⟨f, rfl⟩ : ∃ f, fuel = f + 1 := by
      refine ⟨fuel - 1, ?_⟩
      simp [jfuel] at hfuel
      omega
    show parseVal (f + 1) ('n' :: ('u' :: ('l' :: ('l' :: rest)))) = some (Json.null, rest)
    have hsk : skipWs ('n' :: ('u' :: ('l' :: ('l' :: rest))))
        = 'n' :: ('u' :: ('l' :: ('l' :: rest))) := skipWs_not_ws _ (by decide)
    simp only [parseVal]
    rw [hsk]
    simp [quoteChar, lbraceChar]
  | hbool b =>
    intro fuel rest hfuel hwf hnd
    obtain ⟨f, rfl⟩ : ∃ f, fuel = f + 1 := by
      refine ⟨fuel - 1, ?_⟩
      simp [jfuel] at hfuel
      omega
    cases b with
    | true =>
      show parseVal (f + 1) ('t' :: ('r' :: ('u' :: ('e' :: rest))))
        = some (Json.bool true, rest)
      have hsk : skipWs ('t' :: ('r' :: ('u' :: ('e' :: rest))))
          = 't' :: ('r' :: ('u' :: ('e' :: rest))) := skipWs_not_ws _ (by decide)
      simp only [parseVal]
      rw [hsk]
      simp [quoteChar, lbraceChar]
    | false =>
      show parseVal (f + 1) ('f' :: ('a' :: ('l' :: ('s' :: ('e' :: rest)))))
        = some (Json.bool false, rest)
      have hsk : skipWs ('f' :: ('a' :: ('l' :: ('s' :: ('e' :: rest)))))
          = 'f' :: ('a' :: ('l' :: ('s' :: ('e' :: rest)))) := skipWs_not_ws _ (by decide)
      simp only [parseVal]
      rw [hsk]
      simp [quoteChar, lbraceChar]
  | hnum n =>
    intro fuel rest hfuel hwf hnd
    obtain ⟨f, rfl⟩ : ∃ f, fuel = f + 1 := by
      refine ⟨fuel - 1, ?_⟩
      simp [jfuel] at hfuel
      omega
    have htok := parseIntTok_serInt n rest hnd
    show parseVal (f + 1) (serInt n ++ rest) = some (Json.num n, rest)
    by_cases hn : n < 0
    · rw [show serInt n = '-' :: serNat n.natAbs from by simp [serInt, hn]]
      have hsk : skipWs (('-' :: serNat n.natAbs) ++ rest)
          = ('-' :: serNat n.natAbs) ++ rest := by
        simp only [List.cons_append]
        exact skipWs_not_ws _ (by decide)
      simp only [parseVal]
      rw [hsk]
      simp only [List.cons_append]
      rw [show serInt n = '-' :: serNat n.natAbs from by simp [serInt, hn],
        List.cons_append] at htok
      simp [quoteChar, lbraceChar, htok]
    · rw [show serInt n = serNat n.toNat from by simp [serInt, hn]]
      obtain ⟨d, ds, hds, hd⟩ := serNat_head n.toNat
      have hdns := digit_not_special d hd
      rw [hds]
      have hsk : skipWs ((d :: ds) ++ rest) = (d :: ds) ++ rest := by
        simp only [List.cons_append]
        exact skipWs_not_ws _ hdns.2.2.2.2.2.2.2.2.2
      simp only [parseVal]
      rw [hsk]
      simp only [List.cons_append]
      rw [show serInt n = serNat n.toNat from by simp [serInt, hn], hds,
        List.cons_append] at htok
      simp [hdns.1, hdns.2.1, hdns.2.2.1, hdns.2.2.2.1, hdns.2.2.2.2.1,
        hdns.2.2.2.2.2.1, htok]
  | hstr s =>
    intro fuel rest hfuel hwf hnd
    obtain ⟨f, rfl⟩ : ∃ f, fuel = f + 1 := by
      refine ⟨fuel - 1, ?_⟩
      simp [jfuel] at hfuel
      omega
    show parseVal (f + 1)
      ((quoteChar :: (escapeList s.data ++ [quoteChar])) ++ rest) = some (Json.str s, rest)
    have hsk : skipWs ((quoteChar :: (escapeList s.data ++ [quoteChar])) ++ rest)
        = (quoteChar :: (escapeList s.data ++ [quoteChar])) ++ rest := by
      simp only [List.cons_append]
      exact skipWs_not_ws _ (by decide)
    simp only [parseVal]
    rw [hsk]
    have hesc := parseStrBody_escape s.data rest
    simp [hesc]
  | harr items ihe =>
    intro fuel rest hfuel hwf hnd
    obtain ⟨f, rfl⟩ : ∃ f, fuel = f + 1 := by
      refine ⟨fuel - 1, ?_⟩
      simp [jfuel] at hfuel
      omega
    have hwit : wfKeysItems items = true := by simpa [wfKeys] using hwf
    have hfit : jfuelItems items ≤ f := by
      simp [jfuel] at hfuel
      omega
    show parseVal (f + 1) (('[' :: (serItems items ++ [']'])) ++ rest)
      = some (Json.arr items, rest)
    have hsk : skipWs (('[' :: (serItems items ++ [']'])) ++ rest)
        = ('[' :: (serItems items ++ [']'])) ++ rest := by
      simp only [List.cons_append]
      exact skipWs_not_ws _ (by decide)
    simp only [parseVal]
    rw [hsk]
    cases items with
    | nil =>
      have hsk2 : skipWs (']' :: rest) = ']' :: rest := skipWs_not_ws _ (by decide)
      simp [serItems, hsk2, show ¬('[' : Char) = quoteChar from by decide]
    | cons x xs =>
      obtain ⟨c, ccs, hcx, hcw, hcb, _⟩ := serJson_head x
      obtain ⟨T, hT⟩ := serItems_head x xs c ccs hcx
      rw [hT]
      have hsk2 : skipWs (c :: (T ++ (']' :: rest))) = c :: (T ++ (']' :: rest)) :=
        skipWs_not_ws _ hcw
      have hitems := parseItems_serItems (x :: xs) ihe hwit (by simp) f rest hfit hnd
      rw [hT] at hitems
      simp only [List.cons_append] at hitems
      simp [hsk2, hcb, hitems, show ¬('[' : Char) = quoteChar from by decide]
  | hobj fields ihe =>
    intro fuel rest hfuel hwf hnd
    obtain ⟨f, rfl⟩ : ∃ f, fuel = f + 1 := by
      refine ⟨fuel - 1, ?_⟩
      simp [jfuel] at hfuel
      omega
    obtain ⟨hkn, hwfl⟩ : keysNodup (fields.map Prod.fst) = true ∧
        wfKeysFields fields = true := by
      simpa [wfKeys] using hwf
    have hffl : jfuelFields fields ≤ f := by
      simp [jfuel] at hfuel
      omega
    show parseVal (f + 1) ((lbraceChar :: (serFields fields ++ [rbraceChar])) ++ rest)
      = some (Json.obj fields, rest)
    have hsk : skipWs ((lbraceChar :: (serFields fields ++ [rbraceChar])) ++ rest)
        = (lbraceChar :: (serFields fields ++ [rbraceChar])) ++ rest := by
      simp only [List.cons_append]
      exact skipWs_not_ws _ (by decide)
    simp only [parseVal]
    rw [hsk]
    cases fields with
    | nil =>
      have hsk2 : skipWs (rbraceChar :: rest) = rbraceChar :: rest :=
        skipWs_not_ws _ (by decide)
      simp [serFields, hsk2, show ¬lbraceChar = quoteChar from by decide,
        show ¬lbraceChar = '[' from by decide]
    | cons p ps =>
      obtain ⟨T, hT⟩ := serFields_head p ps
      rw [hT]
      have hsk2 : skipWs (quoteChar :: (T ++ (rbraceChar :: rest)))
          = quoteChar :: (T ++ (rbraceChar :: rest)) := skipWs_not_ws _ (by decide)
      have hmem := parseMembers_serFields (p :: ps) ihe hwfl (by simp) f rest hffl hnd
      rw [hT] at hmem
      simp only [List.cons_append] at hmem
      have hdd : dedupFields (p :: ps) = p :: ps := dedupFields_eq_self _ hkn
      simp [hsk2, show ¬lbraceChar = quoteChar from by decide,
        show ¬lbraceChar = '[' from by decide,
        show ¬quoteChar = rbraceChar from by decide, hmem, hdd]

theorem jfuelItems_le_length (l : List Json)
    (IH : ∀ x ∈ l, jfuel x ≤ (serJson x).length + 1) :
    jfuelItems l ≤ (serItems l).length + 2 := by
  induction l with
  | nil => simp [jfuelItems, serItems]
  | cons x xs ih =>
    cases xs with
    | nil =>
      have h1 := IH x (List.mem_cons_self _ _)
      simp only [jfuelItems, show serItems [x] = serJson x from rfl]
      omega
    | cons y ys =>
      have h1 := IH x (List.mem_cons_self _ _)
      have h2 := ih (fun z hz => IH z (List.mem_cons_of_mem _ hz))
      simp only [jfuelItems,
        show serItems (x :: y :: ys)
          = serJson x ++ (',' :: ' ' :: serItems (y :: ys)) from rfl,
        List.length_append, List.length_cons] at h2 ⊢
      omega

theorem jfuelFields_le_length (l : List (String × Json))
    (IH : ∀ p ∈ l, jfuel p.2 ≤ (serJson p.2).length + 1) :
    jfuelFields l ≤ (serFields l).length + 2 := by
  induction l with
  | nil => simp [jfuelFields, serFields]
  | cons p ps ih =>
    cases ps with
    | nil =>
      have h1 := IH p (List.mem_cons_self _ _)
      simp only [jfuelFields,
        show serFields [p] = serStr p.1 ++ (':' :: ' ' :: serJson p.2) from rfl,
        List.length_append, List.length_cons]
      omega
    | cons q qs =>
      have h1 := IH p (List.mem_cons_self _ _)
      have h2 := ih (fun z hz => IH z (List.mem_cons_of_mem _ hz))
      simp only [jfuelFields,
        show serFields (p :: q :: qs)
          = (serStr p.1 ++ (':' :: ' ' :: serJson p.2)) ++
              (',' :: ' ' :: serFields (q :: qs)) from rfl,
        List.length_append, List.length_cons] at h2 ⊢
      omega

theorem jfuel_le_length : ∀ v : Json, jfuel v ≤ (serJson v).length + 1 := by
  intro v
  induction v using Json.indOn with
  | hnull => simp [jfuel]
  | hbool b => cases b <;> simp [jfuel]
  | hnum n =>
    simp only [jfuel]
    omega
  | hstr s =>
    simp only [jfuel]
    omega
  | harr items ihe =>
    have h := jfuelItems_le_length items ihe
    simp only [jfuel,
      show serJson (Json.arr items) = '[' :: (serItems items ++ [']']) from rfl,
      List.length_cons, List.length_append] at h ⊢
    omega
  | hobj fields ihe =>
    have h := jfuelFields_le_length fields ihe
    simp only [jfuel,
      show serJson (Json.obj fields)
        = lbraceChar :: (serFields fields ++ [rbraceChar]) from rfl,
      List.length_cons, List.length_append] at h ⊢
    omega

/-- `json.loads (json.dumps v) = v` for every value whose objects have
duplicate-free keys. -/
theorem parseJson_dumps (v : Json) (hwf : wfKeys v = true) :
    parseJson (dumps v) = some v := by
  unfold parseJson dumps
  have h := parseVal_serJson v ((serJson v).length + 1) []
    (by have := jfuel_le_length v; omega) hwf rfl
  rw [List.append_nil] at h
  rw [show (String.mk (serJson v)).length = (serJson v).length from rfl,
    show (String.mk (serJson v)).data = serJson v from rfl, h]
  simp [skipWs]

theorem wfKeysItems_of_isDataValItems (l : List Json)
    (IH : ∀ x ∈ l, isDataVal x = true → wfKeys x = true)
    (h : isDataValItems l = true) : wfKeysItems l = true := by
  induction l with
  | nil => rfl
  | cons x xs ih =>
    simp only [isDataValItems, Bool.and_eq_true] at h
    simp only [wfKeysItems, Bool.and_eq_true]
    exact ⟨IH x (List.mem_cons_self _ _) h.1,
      ih (fun z hz => IH z (List.mem_cons_of_mem _ hz)) h.2⟩

theorem wfKeysFields_of_isDataValFields (l : List (String × Json))
    (IH : ∀ p ∈ l, isDataVal p.2 = true → wfKeys p.2 = true)
    (h : isDataValFields l = true) : wfKeysFields l = true := by
  induction l with
  | nil => rfl
  | cons p ps ih =>
    simp only [isDataValFields, Bool.and_eq_true] at h
    simp only [wfKeysFields, Bool.and_eq_true]
    exact ⟨IH p (List.mem_cons_self _ _) h.1,
      ih (fun z hz => IH z (List.mem_cons_of_mem _ hz)) h.2⟩

theorem wfKeys_of_isDataVal : ∀ v : Json, isDataVal v = true → wfKeys v = true := by
  intro v
  induction v using Json.indOn with
  | hnull => intro h; exact absurd h (by decide)
  | hbool b => intro h; exact absurd h (by simp [isDataVal])
  | hnum n => intro _; rfl
  | hstr s => intro _; rfl
  | harr items ihe =>
    intro h
    simp only [isDataVal] at h
    exact wfKeysItems_of_isDataValItems items ihe h
  | hobj fields ihe =>
    intro h
    simp only [isDataVal, Bool.and_eq_true] at h
    simp only [wfKeys, Bool.and_eq_true]
    exact ⟨h.1, wfKeysFields_of_isDataValFields fields ihe h.2⟩

theorem dumps_ne_empty (v : Json) : dumps v ≠ "" := by
  obtain ⟨c, cs, hc, _, _, _⟩ := serJson_head v
  unfold dumps
  rw [hc]
  intro he
  have h2 := congrArg String.data he
  simp at h2

/-! ## Claim C5 -/
/-- C5: for every cache key, every value in the claimed fragment (nested
JSON objects, arrays, numbers and strings) and every positive TTL,
`cache_report` followed by `get_cached_report` before expiry returns the
value unchanged — JSON round-trip fidelity through
`json.dumps`/`json.loads`. -/
theorem c5_cache_roundtrip (k : String) (v : Json) (ttl : Nat) (s : Store)
    (hv : isDataVal v = true) (httl : 0 < ttl) :
    get_cached_report k (cache_report k v ttl s) = some v := by
  unfold cache_report get_cached_report setex
  rw [aget_aset_self]
  have hwf := wfKeys_of_isDataVal v hv
  have hprs := parseJson_dumps v hwf
  have hne : dumps v ≠ "" := dumps_ne_empty v
  cases v with
  | null => exact absurd hv (by decide)
  | bool b => exact absurd hv (by simp [isDataVal])
  | num n => simp [hne, hprs]
  | str s2 => simp [hne, hprs]
  | arr items => simp [hne, hprs]
  | obj fields => simp [hne, hprs]

/-- C5 witness: a nested object round-trips through the cache. -/
theorem c5_cache_roundtrip_witness :
    isDataVal (Json.obj [("a", Json.num 1),
      ("b", Json.arr [Json.str "x y", Json.num (-2)])]) = true ∧
    0 < 60 ∧
    get_cached_report "report"
      (cache_report "report"
        (Json.obj [("a", Json.num 1),
          ("b", Json.arr [Json.str "x y", Json.num (-2)])]) 60 [])
      = some (Json.obj [("a", Json.num 1),
          ("b", Json.arr [Json.str "x y", Json.num (-2)])]) :=
  ⟨by rfl, by decide,
   c5_cache_roundtrip "report"
     (Json.obj [("a", Json.num 1), ("b", Json.arr [Json.str "x y", Json.num (-2)])])
     60 [] (by rfl) (by decide)⟩

/-! ## Claim C6 -/
/-- C6: a cache key whose stored payload is not valid JSON reads back as
`None` — exactly like a key that does not exist — and, the embedded read
being a total function, no error reaches the caller. -/
theorem c6_corrupt_payload_reads_as_miss (k : String) (s : Store) :
    (∀ c t, aget s (nsCache k) = some ⟨RVal.str c, t⟩ → parseJson c = none →
      get_cached_report k s = none) ∧
    (aget s (nsCache k) = none → get_cached_report k s = none) := by
  constructor
  · intro c t h hp
    unfold get_cached_report
    rw [h]
    by_cases hc : c = "" <;> simp [hc, hp]
  · intro h
    unfold get_cached_report
    rw [h]

/-- C6 witness: the literal payload `"not json"` is a miss. -/
theorem c6_corrupt_payload_witness :
    aget [(nsCache "r", Entry.mk (RVal.str "not json") (some 60))] (nsCache "r")
      = some (Entry.mk (RVal.str "not json") (some 60)) ∧
    parseJson "not json" = none ∧
    get_cached_report "r"
      [(nsCache "r", Entry.mk (RVal.str "not json") (some 60))] = none :=
  ⟨by decide, by rfl,
   (c6_corrupt_payload_reads_as_miss "r"
       [(nsCache "r", Entry.mk (RVal.str "not json") (some 60))]).1
     "not json" (some 60) (by decide) (by rfl)⟩

/-! ## Claim C10 -/
/-- C10: caching the value `None` (JSON `null`) and reading it back gives
`None`, the same observable result as a missing key: a caller cannot
distinguish a cached null from a cache miss, so round-trip fidelity fails
for `None`. -/
theorem c10_cached_null_reads_as_miss (k : String) (ttl : Nat) (s s2 : Store)
    (httl : 0 < ttl) (habs : aget s2 (nsCache k) = none) :
    get_cached_report k (cache_report k Json.null ttl s) = none ∧
    get_cached_report k s2 = none := by
  constructor
  · unfold cache_report get_cached_report setex
    rw [aget_aset_self]
    have hprs : parseJson (dumps Json.null) = some Json.null :=
      parseJson_dumps Json.null rfl
    have hne : dumps Json.null ≠ "" := dumps_ne_empty Json.null
    simp [hne, hprs]
  · unfold get_cached_report
    rw [habs]

/-- C10 witness: caching `null` under a key and reading it back is
indistinguishable from reading a key absent from the empty store. -/
theorem c10_cached_null_witness :
    0 < 60 ∧ aget ([] : Store) (nsCache "r") = none ∧
    get_cached_report "r" (cache_report "r" Json.null 60 []) = none ∧
    get_cached_report "r" ([] : Store) = none :=
  ⟨by decide, rfl,
   (c10_cached_null_reads_as_miss "r" 60 [] [] (by decide) rfl).1,
   (c10_cached_null_reads_as_miss "r" 60 [] [] (by decide) rfl).2⟩

/-! ## Claim C7 -/
theorem isSome_aget_of_mem {α : Type} (l : List (String × α)) (k : String)
    (h : k ∈ l.map Prod.fst) : (aget l k).isSome = true := by
  induction l with
  | nil => simp at h
  | cons p rest ih =>
    by_cases hp : p.1 = k
    · simp [aget, hp]
    · simp only [List.map, List.mem_cons] at h
      rcases h with h | h
      · exact absurd h.symm hp
      · simp only [aget, if_neg hp]
        exact ih h

/-- `DEL` deletes exactly the named keys and counts the ones that existed. -/
theorem redisDel_spec : ∀ (ks : List String) (s : Store), ks.Nodup →
    (s.map Prod.fst).Nodup →
    (redisDel s ks).1 = (ks.filter (fun k => (aget s k).isSome)).length ∧
    ∀ k, aget (redisDel s ks).2 k = if k ∈ ks then none else aget s k := by
  intro ks
  induction ks with
  | nil =>
    intro s _ _
    exact ⟨rfl, fun k => by simp [redisDel]⟩
  | cons k0 ks ih =>
    intro s hknd hsnd
    obtain ⟨hk0, hksnd⟩ := List.nodup_cons.mp hknd
    cases hget : aget s k0 with
    | some e =>
      have hsnd2 : ((adel s k0).map Prod.fst).Nodup :=
        hsnd.sublist (adel_keys_sublist s k0)
      obtain ⟨ihc, ihv⟩ := ih (adel s k0) hksnd hsnd2
      constructor
      · simp only [redisDel, hget]
        rw [ihc]
        have hfeq : ks.filter (fun k => (aget (adel s k0) k).isSome)
            = ks.filter (fun k => (aget s k).isSome) := by
          apply List.filter_congr
          intro z hz
          rw [aget_adel_ne s (fun he => hk0 (by rw [he]; exact hz))]
        rw [hfeq]
        simp [List.filter_cons, hget]
      · intro k
        simp only [redisDel, hget]
        rw [ihv k]
        by_cases hk : k = k0
        · subst hk
          simp [hk0, aget_adel_self s k hsnd]
        · have hne : k0 ≠ k := fun he => hk he.symm
          rw [aget_adel_ne s hne]
          simp [List.mem_cons, hk]
    | none =>
      obtain ⟨ihc, ihv⟩ := ih s hksnd hsnd
      constructor
      · simp only [redisDel, hget]
        rw [ihc]
        simp [List.filter_cons, hget]
      · intro k
        simp only [redisDel, hget]
        rw [ihv k]
        by_cases hk : k = k0
        · subst hk
          by_cases hm : k ∈ ks <;> simp [hm, hget]
        · simp [List.mem_cons, hk]

/-- C7: on a store with distinct keys, `invalidate_cache` deletes exactly
the present keys matching its pattern, in one batch, and returns their
count (0 when none matched); every matching key — the cached report keys
under the default pattern in particular — subsequently reads as absent. -/
theorem c7_invalidate_cache_exact (pattern : String) (s : Store)
    (hs : (s.map Prod.fst).Nodup) :
    (invalidate_cache pattern s).1 = (redisKeys s pattern).length ∧
    (∀ k : String, aget (invalidate_cache pattern s).2 k
      = if globMatch pattern.data k.data then none else aget s k) ∧
    (∀ ck : String, globMatch pattern.data (nsCache ck).data = true →
      get_cached_report ck (invalidate_cache pattern s).2 = none) := by
  have hksnd : (redisKeys s pattern).Nodup := hs.filter _
  have hmem : ∀ k, k ∈ redisKeys s pattern ↔
      k ∈ s.map Prod.fst ∧ globMatch pattern.data k.data = true := by
    intro k
    unfold redisKeys
    rw [List.mem_filter]
  have habs : ∀ k : String, globMatch pattern.data k.data = true →
      k ∉ redisKeys s pattern → aget s k = none := by
    intro k hm hnot
    by_cases hp : k ∈ s.map Prod.fst
    · exact absurd ((hmem k).mpr ⟨hp, hm⟩) hnot
    · exact aget_eq_none_of_not_mem s k hp
  have hmain : (∀ k : String, aget (invalidate_cache pattern s).2 k
      = if globMatch pattern.data k.data then none else aget s k) →
      (∀ ck : String, globMatch pattern.data (nsCache ck).data = true →
        get_cached_report ck (invalidate_cache pattern s).2 = none) := by
    intro h2 ck hm
    unfold get_cached_report
    rw [h2 (nsCache ck), if_pos hm]
  by_cases hempty : (redisKeys s pattern).isEmpty
  · have hnil : redisKeys s pattern = [] := List.isEmpty_iff.mp hempty
    have hinv : invalidate_cache pattern s = (0, s) := by
      unfold invalidate_cache
      rw [hnil]
      rfl
    have h2 : ∀ k : String, aget (invalidate_cache pattern s).2 k
        = if globMatch pattern.data k.data then none else aget s k := by
      intro k
      rw [hinv]
      by_cases hm : globMatch pattern.data k.data
      · rw [if_pos hm, habs k hm (by rw [hnil]; exact List.not_mem_nil k)]
      · rw [if_neg hm]
    refine ⟨?_, h2, hmain h2⟩
    rw [hinv, hnil]
    rfl
  · obtain ⟨hc, hv⟩ := redisDel_spec (redisKeys s pattern) s hksnd hs
    have hinv : invalidate_cache pattern s = redisDel s (redisKeys s pattern) := by
      unfold invalidate_cache
      rw [if_neg hempty]
    have hcount : (invalidate_cache pattern s).1 = (redisKeys s pattern).length := by
      rw [hinv, hc]
      have hall : (redisKeys s pattern).filter (fun k => (aget s k).isSome)
          = redisKeys s pattern := by
        rw [List.filter_eq_self]
        intro k hk
        exact isSome_aget_of_mem s k ((hmem k).mp hk).1
      rw [hall]
    have h2 : ∀ k : String, aget (invalidate_cache pattern s).2 k
        = if globMatch pattern.data k.data then none else aget s k := by
      intro k
      rw [hinv, hv k]
      by_cases hm : globMatch pattern.data k.data
      · rw [if_pos hm]
        by_cases hin : k ∈ redisKeys s pattern
        · rw [if_pos hin]
        · rw [if_neg hin]
          exact habs k hm hin
      · rw [if_neg hm, if_neg (fun hin => hm ((hmem k).mp hin).2)]
    exact ⟨hcount, h2, hmain h2⟩

/-- C7 witness: three cached report keys, invalidated with the default
pattern, give count 3 and a subsequent get on one of them is absent. -/
theorem c7_invalidate_cache_witness :
    (([(nsCache "a", Entry.mk (RVal.str "1") (some 60)),
       (nsCache "b", Entry.mk (RVal.str "2") (some 60)),
       (nsCache "c", Entry.mk (RVal.str "3") (some 60))] : Store).map
        Prod.fst).Nodup ∧
    (invalidate_cache "analytics:cache:*"
      [(nsCache "a", Entry.mk (RVal.str "1") (some 60)),
       (nsCache "b", Entry.mk (RVal.str "2") (some 60)),
       (nsCache "c", Entry.mk (RVal.str "3") (some 60))]).1 = 3 ∧
    get_cached_report "b"
      (invalidate_cache "analytics:cache:*"
        [(nsCache "a", Entry.mk (RVal.str "1") (some 60)),
         (nsCache "b", Entry.mk (RVal.str "2") (some 60)),
         (nsCache "c", Entry.mk (RVal.str "3") (some 60))]).2 = none :=
  ⟨by decide,
   Eq.trans
     ((c7_invalidate_cache_exact "analytics:cache:*"
        [(nsCache "a", Entry.mk (RVal.str "1") (some 60)),
         (nsCache "b", Entry.mk (RVal.str "2") (some 60)),
         (nsCache "c", Entry.mk (RVal.str "3") (some 60))] (by decide)).1)
     (by decide),
   (c7_invalidate_cache_exact "analytics:cache:*"
      [(nsCache "a", Entry.mk (RVal.str "1") (some 60)),
       (nsCache "b", Entry.mk (RVal.str "2") (some 60)),
       (nsCache "c", Entry.mk (RVal.str "3") (some 60))] (by decide)).2.2
     "b" (by decide)⟩

end Analytics
